import Mathlib

set_option autoImplicit false

/-!
Shallow embedding of the golem reactive rendering engine.

The definitions below are translated from the repository source:
* `src/dom/vdom.go` — the VNode data model, the diff engine
  (`Diff`, `diffRecursive`, `diffProps`, `diffChildren`,
  `diffChildrenWithKeys`, `hasKeys`, `needsReorder`) and the scheduler
  (`Schedule`, `processUpdates`).
* `src/state/reactive.go` — `Observable` (`Set`, `Subscribe` and the
  unsubscribe closure) and `Store` (`Dispatch`, `dispatchToReducers`).

Go maps are modelled as association lists (lookup = the map access;
iteration = list order; building a map with overwriting = last write
wins).  Go `nil` pointers are modelled with `Option`; a Go runtime
panic (nil dereference) is modelled by an `Option.none` result of the
embedded function.
-/

/-- Tagged prop values: `interface\x7b\x7d` values stored in `VNode.Props`,
compared by the diff engine with `reflect.DeepEqual` (structural
equality). -/
inductive PVal where
  | s (v : String)
  | n (v : Int)
  | b (v : Bool)
  deriving DecidableEq, Repr

/-- `VNode` (src/dom/vdom.go): `Type`, `Props` (a Go map, modelled as an
association list), `Children` (`[]*VNode`; entries may be nil, hence
`Option`), `Key` (`""` means no key, as in Go where `""` is the zero
value). The `Component`/`Hooks`/`JSElement`/`IsDirty` fields play no
role in the diff functions and are omitted. -/
inductive VNode where
  | mk (type : String) (props : List (String × PVal))
       (children : List (Option VNode)) (key : String)
  deriving Repr

def VNode.type : VNode → String
  | .mk t _ _ _ => t

def VNode.props : VNode → List (String × PVal)
  | .mk _ p _ _ => p

def VNode.children : VNode → List (Option VNode)
  | .mk _ _ c _ => c

def VNode.key : VNode → String
  | .mk _ _ _ k => k

/-- `DiffType` constants from src/dom/vdom.go. -/
inductive DiffType where
  | DiffCreate
  | DiffUpdate
  | DiffRemove
  | DiffReplace
  | DiffReorder
  deriving DecidableEq, Repr

/-- `Diff` record from src/dom/vdom.go.  `Props` holds the prop delta of
an Update: `some v` sets a prop, `none` is the removal tombstone
(Go stores `nil`).  Unset fields default to the Go zero values. -/
structure Diff where
  type : DiffType
  oldNode : Option VNode := none
  newNode : Option VNode := none
  index : Nat := 0
  props : List (String × Option PVal) := []
  deriving Repr

/-- Go map lookup on an association list (first binding wins; Go maps
never hold duplicate keys, so well-formed prop lists have nodup keys). -/
def mapLookup (ps : List (String × PVal)) (k : String) : Option PVal :=
  match ps with
  | [] => none
  | (k', v) :: rest => if k' = k then some v else mapLookup rest k

/-- `diffProps` (src/dom/vdom.go): changed/added keys map to the new
value, keys of `oldProps` absent from `newProps` map to the removal
tombstone (`nil` in Go, `none` here).  Go-map iteration order is
modelled by list order: new props first, then old props. -/
def diffProps (oldProps newProps : List (String × PVal)) : List (String × Option PVal) :=
  (newProps.filterMap fun kv =>
    match mapLookup oldProps kv.1 with
    | none => some (kv.1, some kv.2)
    | some oldValue => if oldValue = kv.2 then none else some (kv.1, some kv.2))
  ++ (oldProps.filterMap fun kv =>
    match mapLookup newProps kv.1 with
    | none => some (kv.1, (none : Option PVal))
    | some _ => none)

/-- `hasKeys` (src/dom/vdom.go): does any non-nil child carry a key? -/
def hasKeys (children : List (Option VNode)) : Bool :=
  children.any fun child =>
    match child with
    | some c => c.key != ""
    | none => false

/-- `needsReorder`, inner loop: `lastIndex` starts at `-1`; a matched
move smaller than the last matched move means a reorder is needed. -/
def needsReorderAux (lastIndex : Int) : List Int → Bool
  | [] => false
  | moveIndex :: rest =>
    if moveIndex != -1 then
      if moveIndex < lastIndex then true
      else needsReorderAux moveIndex rest
    else needsReorderAux lastIndex rest

/-- `needsReorder` (src/dom/vdom.go). -/
def needsReorder (moves : List Int) : Bool :=
  needsReorderAux (-1) moves

/-- Lookup in the `oldKeyMap`/`newKeyMap` built by
`diffChildrenWithKeys`: the map holds `child.Key ↦ index` for every
non-nil keyed child, later children overwriting earlier ones (Go map
writes, "last write wins"). -/
def keyMapLookup : List (Option VNode) → Nat → String → Option Nat
  | [], _, _ => none
  | child :: rest, i, k =>
    match keyMapLookup rest (i + 1) k with
    | some j => some j
    | none =>
      match child with
      | some c => if c.key != "" && c.key == k then some i else none
      | none => none

/-- Membership in the key map built by `diffChildrenWithKeys`. -/
def keyMapHas (children : List (Option VNode)) (k : String) : Bool :=
  children.any fun child =>
    match child with
    | some c => c.key != "" && c.key == k
    | none => false

/-- The `moves` array of `diffChildrenWithKeys`: initialised to `-1`,
`moves[newIndex] = oldIndex` exactly where a keyed new child matches a
key of `oldKeyMap`. -/
def movesOf (oldChildren newChildren : List (Option VNode)) : List Int :=
  newChildren.map fun child =>
    match child with
    | some c =>
      if c.key != "" then
        match keyMapLookup oldChildren 0 c.key with
        | some oldIndex => (oldIndex : Int)
        | none => -1
      else -1
    | none => -1

/-- The trailing loop of `diffChildrenWithKeys`: a `DiffRemove` for each
non-nil keyed old child whose key is absent from the new key map. -/
def removedDiffs : List (Option VNode) → Nat → List (Option VNode) → List Diff
  | [], _, _ => []
  | child :: rest, oldIndex, newChildren =>
    (match child with
     | some c =>
       if c.key != "" && !keyMapHas newChildren c.key then
         [{ type := .DiffRemove, oldNode := some c, index := oldIndex }]
       else []
     | none => []) ++ removedDiffs rest (oldIndex + 1) newChildren

mutual

/-- `diffRecursive` (src/dom/vdom.go).  Both arguments nil dereferences
`oldNode.Type` in Go — a runtime panic, modelled as `none`. -/
def diffRecursive (oldNode newNode : Option VNode) (index : Nat) : Option (List Diff) :=
  match oldNode, newNode with
  | some o, none => some [{ type := .DiffRemove, oldNode := some o, index := index }]
  | none, some n => some [{ type := .DiffCreate, newNode := some n, index := index }]
  | none, none => none
  | some o, some n =>
    if o.type ≠ n.type then
      some [{ type := .DiffReplace, oldNode := some o, newNode := some n, index := index }]
    else
      let propDiffs := diffProps o.props n.props
      let updates : List Diff :=
        if propDiffs ≠ [] then
          [{ type := .DiffUpdate, oldNode := some o, newNode := some n,
             props := propDiffs, index := index }]
        else []
      Option.bind (diffChildren o.children n.children index) fun ds =>
        some (updates ++ ds)
termination_by (sizeOf oldNode + sizeOf newNode, 2)
decreasing_by
  simp_wf
  apply Prod.Lex.left
  have h1 : sizeOf o.children < sizeOf o := by
    cases o with
    | mk t p c k => simp only [VNode.children, VNode.mk.sizeOf_spec]; omega
  have h2 : sizeOf n.children < sizeOf n := by
    cases n with
    | mk t p c k => simp only [VNode.children, VNode.mk.sizeOf_spec]; omega
  omega

/-- `diffChildren` (src/dom/vdom.go): positional diffing when no key is
present on either side, keyed diffing otherwise. -/
def diffChildren (oldChildren newChildren : List (Option VNode)) (parentIndex : Nat) :
    Option (List Diff) :=
  if !hasKeys oldChildren && !hasKeys newChildren then
    diffPositional oldChildren newChildren 0
  else
    diffChildrenWithKeys oldChildren newChildren parentIndex
termination_by (sizeOf oldChildren + sizeOf newChildren, 2)

/-- The positional loop of `diffChildren`: index `i` runs to the maximum
of the two lengths; a missing entry is Go `nil`, i.e. `none`. -/
def diffPositional (oldChildren newChildren : List (Option VNode)) (i : Nat) :
    Option (List Diff) :=
  match oldChildren, newChildren with
  | [], [] => some []
  | oldChild :: os, [] =>
    Option.bind (diffRecursive oldChild none i) fun d =>
      Option.bind (diffPositional os [] (i + 1)) fun rest => some (d ++ rest)
  | [], newChild :: ns =>
    Option.bind (diffRecursive none newChild i) fun d =>
      Option.bind (diffPositional [] ns (i + 1)) fun rest => some (d ++ rest)
  | oldChild :: os, newChild :: ns =>
    Option.bind (diffRecursive oldChild newChild i) fun d =>
      Option.bind (diffPositional os ns (i + 1)) fun rest => some (d ++ rest)
termination_by (sizeOf oldChildren + sizeOf newChildren, 1)

/-- `diffChildrenWithKeys` (src/dom/vdom.go): the matching loop over the
new children, then at most one `DiffReorder`, then the removals. -/
def diffChildrenWithKeys (oldChildren newChildren : List (Option VNode))
    (parentIndex : Nat) : Option (List Diff) :=
  Option.bind (keyedLoop oldChildren newChildren 0) fun matched =>
    some (matched
      ++ (if needsReorder (movesOf oldChildren newChildren) then
            [{ type := .DiffReorder, index := parentIndex }]
          else [])
      ++ removedDiffs oldChildren 0 newChildren)
termination_by (sizeOf oldChildren + sizeOf newChildren, 1)

/-- The `for newIndex, newChild := range newChildren` loop of
`diffChildrenWithKeys`: keyed children found in the old key map recurse
through `diffRecursive` against `oldChildren[oldIndex]` (read with
`getD`; the out-of-range default is unreachable because the key map
only holds valid indices), keyed children absent from it yield a
`DiffCreate`, unkeyed and nil children are skipped. -/
def keyedLoop (oldChildren : List (Option VNode)) (rest : List (Option VNode))
    (newIndex : Nat) : Option (List Diff) :=
  match rest with
  | [] => some []
  | newChild :: rest' =>
    match newChild with
    | some c =>
      if c.key != "" then
        match keyMapLookup oldChildren 0 c.key with
        | some oldIndex =>
          Option.bind (diffRecursive (oldChildren.getD oldIndex none) (some c) newIndex)
            fun ds =>
              Option.bind (keyedLoop oldChildren rest' (newIndex + 1)) fun more =>
                some (ds ++ more)
        | none =>
          Option.bind (keyedLoop oldChildren rest' (newIndex + 1)) fun more =>
            some ({ type := .DiffCreate, newNode := some c, index := newIndex } :: more)
      else keyedLoop oldChildren rest' (newIndex + 1)
    | none => keyedLoop oldChildren rest' (newIndex + 1)
termination_by (sizeOf oldChildren + sizeOf rest, 0)
decreasing_by
  all_goals simp_wf
  all_goals first
  | (apply Prod.Lex.right; omega)
  | (apply Prod.Lex.left
     have hall : ∀ (l : List (Option VNode)) (i : Nat), sizeOf ((l[i]?).getD none) ≤ sizeOf l := by
       intro l
       induction l with
       | nil => intro i; simp
       | cons head tail ih =>
         intro i
         cases i with
         | zero =>
           simp only [List.getElem?_cons_zero, Option.getD_some, List.cons.sizeOf_spec]
           omega
         | succ j =>
           have := ih j
           simp only [List.getElem?_cons_succ, List.cons.sizeOf_spec]
           omega
     have hle := hall oldChildren oldIndex
     try simp only [List.cons.sizeOf_spec, Option.some.sizeOf_spec] at *
     omega)
  | (apply Prod.Lex.left
     try simp only [List.cons.sizeOf_spec, Option.some.sizeOf_spec] at *
     omega)

end

/-- `VirtualDOM.Diff` (src/dom/vdom.go): diff two trees starting at
index 0. -/
def VirtualDOM.Diff (oldTree newTree : Option VNode) : Option (List Diff) :=
  diffRecursive oldTree newTree 0

/-! ## Scheduler (src/dom/vdom.go)

Scheduled nodes are identified by `Nat` ids; the per-node `IsDirty`
flag is kept in a `dirty` list (membership = the flag is set). -/

/-- `Priority` constants from src/dom/vdom.go. -/
inductive Priority where
  | ImmediatePriority
  | UserBlockingPriority
  | NormalPriority
  | LowPriority
  | IdlePriority
  deriving DecidableEq, Repr

/-- `Scheduler` (src/dom/vdom.go): a plain FIFO queue of node ids, one
scheduler-wide `Priority` field, and the `IsScheduled` flag. -/
structure Scheduler where
  UpdateQueue : List Nat
  IsScheduled : Bool
  Priority : Priority
  deriving DecidableEq, Repr

/-- The parts of a `VirtualDOM` the scheduler touches: the `Scheduler`,
the `IsDirty` flags of the nodes (as a list of dirty ids), and whether
`flushWork` has requested a deferred host callback
(`requestIdleCallback` / `requestAnimationFrame`). -/
structure VDomState where
  sched : Scheduler
  dirty : List Nat
  flushRequested : Bool
  deriving DecidableEq, Repr

/-- The `VirtualDOM` produced by `NewVirtualDOM`, with no nodes dirty. -/
def NewVirtualDOM : VDomState :=
  { sched := { UpdateQueue := [], IsScheduled := false, Priority := .NormalPriority },
    dirty := [], flushRequested := false }

/-- Set a node's `IsDirty` flag. -/
def markDirty (dirty : List Nat) (vnode : Nat) : List Nat :=
  vnode :: dirty

/-- Clear a node's `IsDirty` flag (`vnode.IsDirty = false`). -/
def clearDirty (dirty : List Nat) (vnode : Nat) : List Nat :=
  dirty.filter fun m => m ≠ vnode

/-- `VirtualDOM.Schedule` (src/dom/vdom.go): append the node to
`UpdateQueue` unconditionally, overwrite the scheduler `Priority` with
the given one, and when `IsScheduled` was false set it and call
`flushWork`, which requests a deferred host callback (it never runs
`processUpdates` synchronously). -/
def Schedule (s : VDomState) (vnode : Nat) (priority : Priority) : VDomState :=
  let sched1 := { s.sched with
    UpdateQueue := s.sched.UpdateQueue ++ [vnode], Priority := priority }
  if !sched1.IsScheduled then
    { s with sched := { sched1 with IsScheduled := true }, flushRequested := true }
  else
    { s with sched := sched1 }

/-- The effects of one `renderComponent` call, modelled abstractly as a
list of `(node, priority)` pairs: each listed node is marked dirty and
passed to `Schedule` while the component renders.  The body of
`renderComponent` in src/dom/vdom.go is an empty stub, i.e. the stub's
behaviour is `fun _ => []` (`renderComponent` below). -/
def renderEffects (entries : List (Nat × Priority)) (s : VDomState) : VDomState :=
  entries.foldl (fun st mp => Schedule { st with dirty := markDirty st.dirty mp.1 } mp.1 mp.2) s

/-- `VirtualDOM.renderComponent` (src/dom/vdom.go): an empty stub — it
schedules nothing. -/
def renderComponent (_vnode : Nat) : List (Nat × Priority) :=
  []

/-- `VirtualDOM.processUpdates` (src/dom/vdom.go):

    for len(queue) > 0: pop the front node; if it is dirty, render it
    and clear its dirty flag.  Afterwards clear IsScheduled.

It is parametrised by the behaviour of the component renders
(`render`) and by a step budget `fuel` (the Go loop has none; `none`
models a run that exceeds the budget).  Returns the list of nodes whose
re-render was invoked, in order, and the final state. -/
def processUpdates (render : Nat → List (Nat × Priority)) :
    Nat → VDomState → Option (List Nat × VDomState)
  | fuel, s =>
    match s.sched.UpdateQueue with
    | [] => some ([], { s with sched := { s.sched with IsScheduled := false } })
    | vnode :: restQ =>
      match fuel with
      | 0 => none
      | fuel' + 1 =>
        let s1 : VDomState := { s with sched := { s.sched with UpdateQueue := restQ } }
        if vnode ∈ s1.dirty then
          let s2 := renderEffects (render vnode) s1
          let s3 : VDomState := { s2 with dirty := clearDirty s2.dirty vnode }
          Option.bind (processUpdates render fuel' s3) fun res =>
            some (vnode :: res.1, res.2)
        else
          processUpdates render fuel' s1

/-! ## Observable (src/state/reactive.go)

Observers are defunctionalised as `Nat` ids; what an observer does when
invoked is given by an interpretation `interp` mapping the id and the
`(newValue, oldValue)` pair to a state transformer.  The state carries
the observable's value, its subscriber list, and an extra component
`ext` for whatever the observers touch (e.g. a recording list). -/

structure ObsState (α : Type) (σ : Type) where
  value : α
  observers : List Nat
  ext : σ

/-- `Observable.Set` (src/state/reactive.go): under the lock read the
old value, store the new one and copy the subscriber list; after
releasing the lock invoke each copied subscriber with
`(newValue, oldValue)` in subscription order.  Returns the final state
and the invocation trace, a list of `(observer id, newValue, oldValue)`
in call order. -/
def ObservableSet {α σ : Type} (interp : Nat → α → α → ObsState α σ → ObsState α σ)
    (s : ObsState α σ) (newValue : α) : ObsState α σ × List (Nat × α × α) :=
  let oldValue := s.value
  let observers := s.observers
  let s1 : ObsState α σ := { s with value := newValue }
  observers.foldl
    (fun acc ob => (interp ob newValue oldValue acc.1, acc.2 ++ [(ob, newValue, oldValue)]))
    (s1, [])

/-- `Observable.Subscribe` (src/state/reactive.go): append the observer
and capture `index = len(observers) - 1` for the unsubscribe closure.
Returns the new subscriber list and the captured index. -/
def ObservableSubscribe (observers : List Nat) (observer : Nat) : List Nat × Nat :=
  (observers ++ [observer], observers.length)

/-- The unsubscribe closure returned by `Observable.Subscribe`
(src/state/reactive.go): if the captured index is still in range,
splice out the element at that position
(`append(observers[:index], observers[index+1:]...)`). -/
def unsubscribeAt (index : Nat) (observers : List Nat) : List Nat :=
  if index < observers.length then
    observers.take index ++ observers.drop (index + 1)
  else
    observers

/-! ## Store (src/state/reactive.go)

Slice values and actions are opaque type parameters.  The Go maps
`state` and `reducers` are association lists with nodup keys; slice
subscribers and the middleware chain play no part in how reducers are
applied and are not modelled. -/

/-- Go map lookup generalised to any value type (same shape as
`mapLookup`). -/
def sliceLookup {β : Type _} (ps : List (String × β)) (k : String) : Option β :=
  match ps with
  | [] => none
  | (k', v) :: rest => if k' = k then some v else sliceLookup rest k

/-- Go map assignment `m[k] = v` on an association list: overwrite the
first binding of `k`, or append a new binding. -/
def sliceInsert {β : Type _} : List (String × β) → String → β → List (String × β)
  | [], k, v => [(k, v)]
  | (k', v') :: rest, k, v =>
    if k' = k then (k, v) :: rest else (k', v') :: sliceInsert rest k v

/-- `Store.dispatchToReducers` (src/state/reactive.go), reducer loop:
for each registered `(key, reducer)`, if the slice `key` has a current
state, replace it with `reducer(currentState, action)`; slices without
a reducer (and reducers without a slice) are left untouched.
`Store.Dispatch` reaches this directly when the middleware chain is
empty. -/
def dispatchToReducers {V A : Type} (reducers : List (String × (V → A → V)))
    (state : List (String × V)) (action : A) : List (String × V) :=
  reducers.foldl
    (fun st kr =>
      match sliceLookup st kr.1 with
      | some currentState => sliceInsert st kr.1 (kr.2 currentState action)
      | none => st)
    state

/-! ## Well-formedness and structural identity of VNode trees -/

/-- The keys carried by the non-nil keyed children of a list, in order. -/
def childKeys : List (Option VNode) → List String
  | [] => []
  | some v :: rest => (if v.key ≠ "" then [v.key] else []) ++ childKeys rest
  | none :: rest => childKeys rest

/-- No duplicates in a list of strings (executable). -/
def nodupStr : List String → Bool
  | [] => true
  | k :: rest => !rest.contains k && nodupStr rest

mutual

/-- A tree drawn from the source's data model: prop keys are unique
(Go maps cannot repeat a key), keys are unique among siblings (the
documented precondition of keyed child diffing), and no child entry is
a nil pointer. -/
def VNodeWF : VNode → Bool
  | .mk _ props children _ =>
    nodupStr (props.map Prod.fst) && nodupStr (childKeys children) && childrenWF children
termination_by v => sizeOf v

/-- All children are non-nil well-formed trees. -/
def childrenWF : List (Option VNode) → Bool
  | [] => true
  | none :: _ => false
  | some v :: rest => VNodeWF v && childrenWF rest
termination_by l => sizeOf l
decreasing_by
  all_goals simp_wf
  all_goals try simp only [List.cons.sizeOf_spec, Option.some.sizeOf_spec, VNode.mk.sizeOf_spec]
  all_goals omega

end

mutual

/-- All child pointers of the tree are non-nil (no well-formedness of
keys required). -/
def noNil : VNode → Bool
  | .mk _ _ children _ => noNilList children
termination_by v => sizeOf v

/-- All entries of the list are non-nil trees without nil descendants. -/
def noNilList : List (Option VNode) → Bool
  | [] => true
  | none :: _ => false
  | some v :: rest => noNil v && noNilList rest
termination_by l => sizeOf l
decreasing_by
  all_goals simp_wf
  all_goals try simp only [List.cons.sizeOf_spec, Option.some.sizeOf_spec, VNode.mk.sizeOf_spec]
  all_goals omega

end

/-- Props equal as maps: same lookup result for every key (order in the
underlying Go map is irrelevant). -/
def propsEquiv (p q : List (String × PVal)) : Prop :=
  ∀ s, mapLookup p s = mapLookup q s

mutual

/-- Structural identity of trees: same type, structurally equal props
(as maps), same key, and structurally identical children at every
position. -/
def SIdent : VNode → VNode → Prop
  | .mk t p c k, .mk t' p' c' k' =>
    t = t' ∧ propsEquiv p p' ∧ k = k' ∧ SIdentChildren c c'
termination_by v _ => sizeOf v

/-- Pointwise structural identity of child lists. -/
def SIdentChildren : List (Option VNode) → List (Option VNode) → Prop
  | [], [] => True
  | some v :: rest, some v' :: rest' => SIdent v v' ∧ SIdentChildren rest rest'
  | _, _ => False
termination_by l _ => sizeOf l
decreasing_by
  all_goals simp_wf
  all_goals try simp only [List.cons.sizeOf_spec, Option.some.sizeOf_spec, VNode.mk.sizeOf_spec]
  all_goals omega

end

/-- The original (old-list) positions of the matched children, read in
new-list order: the non-`-1` entries of the `moves` array.  This is the
sequence the specification's reorder condition speaks about. -/
def matchedMoves (moves : List Int) : List Int :=
  moves.filter fun m => m ≠ -1

/-- Number of operations of a given type in a diff output. -/
def countDiffType (t : DiffType) (ds : List Diff) : Nat :=
  ds.countP fun d => d.type == t

/-- Every child of the list is either nil or a leaf (no grandchildren);
under this hypothesis child diffing cannot emit operations about
deeper levels. -/
def flatChildren (children : List (Option VNode)) : Bool :=
  children.all fun c =>
    match c with
    | some v => v.children.isEmpty
    | none => true

/-! ## Concrete instances used in closed theorems -/

/-- Child A with key "1". -/
def nA : VNode := VNode.mk "div" [] [] "1"

/-- Child B with key "2". -/
def nB : VNode := VNode.mk "div" [] [] "2"

/-- Child C with key "3". -/
def nC : VNode := VNode.mk "div" [] [] "3"

/-- An unkeyed child. -/
def nX : VNode := VNode.mk "span" [] [] ""

/-- Old child list [A(key=1), B(key=2), C(key=3)]. -/
def keyedOld : List (Option VNode) := [some nA, some nB, some nC]

/-- New child list [C(key=3), A(key=1), B(key=2)]. -/
def keyedNew : List (Option VNode) := [some nC, some nA, some nB]

/-- A tree whose two children both carry the key "k" but have different
types: the duplicate sibling keys the source documents as bounded
undefined behaviour. -/
def dupKeyTree : VNode :=
  VNode.mk "div" [] [some (VNode.mk "a" [] [] "k"), some (VNode.mk "b" [] [] "k")] ""

/-- A well-formed tree with props and two keyed children. -/
def wfTree : VNode :=
  VNode.mk "div" [("cls", PVal.s "row")]
    [some (VNode.mk "span" [("n", PVal.n 1)] [] "k1"),
     some (VNode.mk "span" [("n", PVal.n 2)] [] "k2")] ""

/-- A subscriber that records each `(oldValue, newValue)` pair in the
external component, like `seen.push([old, n])`. -/
def recordInterp : Nat → Int → Int → ObsState Int (List (Int × Int)) → ObsState Int (List (Int × Int)) :=
  fun _ n old s => { s with ext := s.ext ++ [(old, n)] }

/-- A subscriber that subscribes a new observer (id 1) from inside the
notification pass. -/
def subscribeInterp : Nat → Int → Int → ObsState Int Unit → ObsState Int Unit :=
  fun _ _ _ s => { s with observers := (ObservableSubscribe s.observers 1).1 }

/-- A render behaviour in which rendering node 1 marks node 2 dirty and
schedules it. -/
def renderSchedules2 : Nat → List (Nat × Priority) :=
  fun n => if n = 1 then [(2, Priority.NormalPriority)] else []

/-- A flush about to start: node 1 is queued and dirty, the deferred
callback has been requested. -/
def flushState0 : VDomState :=
  { sched := { UpdateQueue := [1], IsScheduled := true, Priority := .NormalPriority },
    dirty := [1], flushRequested := true }

/-- A virtual DOM in which node 5 is dirty but nothing is queued yet. -/
def dirtyFiveState : VDomState :=
  { sched := { UpdateQueue := [], IsScheduled := false, Priority := .NormalPriority },
    dirty := [5], flushRequested := false }

/-- A reducer incrementing an integer slice on every action. -/
def incrReducer : Int → Int → Int := fun st _ => st + 1

/-- A store with one registered reducer (slice "a") and two slices. -/
def fixtureReducers : List (String × (Int → Int → Int)) := [("a", incrReducer)]

/-- Slice states: "a" managed by `incrReducer`, "b" without a reducer. -/
def fixtureSlices : List (String × Int) := [("a", 0), ("b", 5)]

/-! # Theorems -/

@[simp] theorem VNode.type_mk (t : String) (p : List (String × PVal))
    (c : List (Option VNode)) (k : String) : (VNode.mk t p c k).type = t := rfl

@[simp] theorem VNode.props_mk (t : String) (p : List (String × PVal))
    (c : List (Option VNode)) (k : String) : (VNode.mk t p c k).props = p := rfl

@[simp] theorem VNode.children_mk (t : String) (p : List (String × PVal))
    (c : List (Option VNode)) (k : String) : (VNode.mk t p c k).children = c := rfl

@[simp] theorem VNode.key_mk (t : String) (p : List (String × PVal))
    (c : List (Option VNode)) (k : String) : (VNode.mk t p c k).key = k := rfl

/-! ## Observable (C3, C10) -/

/-- Helper: the invocation trace of `Set` is fully determined by the
subscriber list captured at call time, whatever the observers do to the
state while the pass runs. -/
theorem observableSet_trace {α σ : Type}
    (interp : Nat → α → α → ObsState α σ → ObsState α σ)
    (s : ObsState α σ) (v : α) :
    (ObservableSet interp s v).2 = s.observers.map fun ob => (ob, v, s.value) := by
  have h : ∀ (l : List Nat) (st : ObsState α σ) (tr : List (Nat × α × α)),
      (l.foldl (fun acc ob => (interp ob v s.value acc.1, acc.2 ++ [(ob, v, s.value)]))
        (st, tr)).2 = tr ++ l.map fun ob => (ob, v, s.value) := by
    intro l
    induction l with
    | nil => intro st tr; simp
    | cons a l ih => intro st tr; simp [ih]
  simpa [ObservableSet] using h s.observers { s with value := v } []

/-- C3: `Observable.Set` notifies exactly the snapshot of the
subscriber list taken at the time of the call, each subscriber once, in
subscription order, with the pair `(newValue, oldValue)` — whatever the
subscribers do to the state mid-pass.  In particular, one recording
subscriber on an observable created with 0 sees `[(0,1), (1,2)]` after
`Set 1; Set 2`, and a subscriber added during an in-flight pass (id 1,
added by `subscribeInterp`) is not notified by that pass. -/
theorem observable_set_notifies_snapshot :
    (∀ (α σ : Type) (interp : Nat → α → α → ObsState α σ → ObsState α σ)
        (s : ObsState α σ) (v : α),
        (ObservableSet interp s v).2 = s.observers.map fun ob => (ob, v, s.value))
    ∧ (ObservableSet recordInterp
        (ObservableSet recordInterp
          { value := 0, observers := [0], ext := [] } 1).1 2).1.ext = [(0, 1), (1, 2)]
    ∧ (ObservableSet subscribeInterp { value := 5, observers := [0], ext := () } 7).2
        = [(0, 7, 5)]
    ∧ (ObservableSet subscribeInterp
        { value := 5, observers := [0], ext := () } 7).1.observers = [0, 1] :=
  ⟨fun _ _ interp s v => observableSet_trace interp s v, rfl, rfl, rfl⟩

/-- C10 counterexample: subscribe observers 10, 20, 30 (captured
indices 0, 1, 2).  After observer 10's unsubscribe runs, invoking
observer 20's unsubscribe (captured index 1) does not remove 20 — it
removes 30 — so an unsubscribe does not remove exactly the observer its
`Subscribe` call added. -/
theorem unsubscribe_after_earlier_removal_misses :
    (ObservableSubscribe [] 10).2 = 0
    ∧ (ObservableSubscribe [10] 20).2 = 1
    ∧ (ObservableSubscribe [10, 20] 30).2 = 2
    ∧ unsubscribeAt 1 (unsubscribeAt 0 [10, 20, 30]) = [20]
    ∧ (20 : Nat) ∈ unsubscribeAt 1 (unsubscribeAt 0 [10, 20, 30])
    ∧ (30 : Nat) ∉ unsubscribeAt 1 (unsubscribeAt 0 [10, 20, 30]) := by
  decide

/-- C10 amended: the unsubscribe closure removes exactly the element at
its captured position.  As long as the observer added by the matching
`Subscribe` still sits at that position (no observer before it was
removed in the meantime), this removes exactly that observer and leaves
every other observer subscribed. -/
theorem unsubscribeAt_removes_captured_position (pre post : List Nat) (ob : Nat) :
    unsubscribeAt pre.length (pre ++ ob :: post) = pre ++ post := by
  unfold unsubscribeAt
  have hlen : pre.length < (pre ++ ob :: post).length := by simp
  rw [if_pos hlen]
  have h1 : (pre ++ ob :: post).take pre.length = pre := List.take_left pre (ob :: post)
  have h2 : (pre ++ ob :: post).drop (pre.length + 1) = post := by
    have hsplit : pre ++ ob :: post = (pre ++ [ob]) ++ post := by simp
    have hl : (pre ++ [ob]).length = pre.length + 1 := by simp
    rw [hsplit, ← hl]
    exact List.drop_left (pre ++ [ob]) post
  rw [h1, h2]

/-! ## Scheduler (C4, C5, C6) -/

/-- C4 counterexample: scheduling node 1 twice before any flush leaves
two entries for it in the pending queue (the collection is not
deduplicated), and the scheduler-wide priority is overwritten with the
last value (`LowPriority`), not upgraded to the highest seen
(`NormalPriority`). -/
theorem schedule_duplicates_pending_node :
    (Schedule (Schedule NewVirtualDOM 1 .NormalPriority) 1 .LowPriority).sched.UpdateQueue
      = [1, 1]
    ∧ ¬ ((Schedule (Schedule NewVirtualDOM 1 .NormalPriority) 1
          .LowPriority).sched.UpdateQueue.count 1 ≤ 1)
    ∧ (Schedule (Schedule NewVirtualDOM 1 .NormalPriority) 1 .LowPriority).sched.Priority
        = .LowPriority := by
  decide

/-- C4 amended: `Schedule` appends the node to the pending queue
unconditionally (so the queue may hold several entries per node), and
overwrites the single scheduler `Priority` field with the priority of
the latest call; coalescing happens only at flush time through the
per-node `IsDirty` flag. -/
theorem schedule_appends_and_overwrites (s : VDomState) (vnode : Nat) (p : Priority) :
    (Schedule s vnode p).sched.UpdateQueue = s.sched.UpdateQueue ++ [vnode]
    ∧ (Schedule s vnode p).sched.Priority = p
    ∧ (Schedule s vnode p).sched.IsScheduled = true
    ∧ (Schedule s vnode p).dirty = s.dirty := by
  unfold Schedule
  by_cases h : s.sched.IsScheduled <;> simp [h]

/-- C5 counterexample: node 1 is queued and dirty; rendering node 1
marks node 2 dirty and schedules it (`renderSchedules2`).  The flush
that starts with queue `[1]` renders both 1 and 2: the entry enqueued
during the flush is processed within the same flush pass. -/
theorem flush_processes_nodes_enqueued_during_flush :
    flushState0.sched.UpdateQueue = [1]
    ∧ (processUpdates renderSchedules2 3 flushState0).map Prod.fst = some [1, 2] := by
  decide

/-- Helper: `processUpdates` on an empty queue only clears
`IsScheduled`. -/
theorem processUpdates_nil (render : Nat → List (Nat × Priority)) (fuel : Nat)
    (s : VDomState) (hq : s.sched.UpdateQueue = []) :
    processUpdates render fuel s
      = some ([], { s with sched := { s.sched with IsScheduled := false } }) := by
  cases s with
  | mk sched dirty fr =>
    cases sched with
    | mk q isS pr =>
      simp only at hq
      subst hq
      cases fuel <;> rfl

/-- Helper: one step of the `processUpdates` loop on a non-empty
queue. -/
theorem processUpdates_cons (render : Nat → List (Nat × Priority)) (fuel : Nat)
    (s : VDomState) (v : Nat) (r : List Nat) (hq : s.sched.UpdateQueue = v :: r) :
    processUpdates render (fuel + 1) s
      = (if v ∈ s.dirty then
           Option.bind (processUpdates render fuel
             { renderEffects (render v) { s with sched := { s.sched with UpdateQueue := r } } with
               dirty := clearDirty (renderEffects (render v)
                 { s with sched := { s.sched with UpdateQueue := r } }).dirty v })
             fun res => some (v :: res.1, res.2)
         else
           processUpdates render fuel { s with sched := { s.sched with UpdateQueue := r } }) := by
  cases s with
  | mk sched dirty fr =>
    cases sched with
    | mk q isS pr =>
      simp only at hq
      subst hq
      rfl

/-- Helper: a non-empty queue with no fuel left is the
out-of-budget marker. -/
theorem processUpdates_zero_cons (render : Nat → List (Nat × Priority))
    (s : VDomState) (v : Nat) (r : List Nat) (hq : s.sched.UpdateQueue = v :: r) :
    processUpdates render 0 s = none := by
  cases s with
  | mk sched dirty fr =>
    cases sched with
    | mk q isS pr =>
      simp only at hq
      subst hq
      rfl

/-- C5 amended: a flush drains the queue until it is empty, including
entries enqueued while the flush is running: whenever `processUpdates`
returns, the final queue is empty and `IsScheduled` is cleared —
nothing pending is left for a later flush. -/
theorem processUpdates_drains_entire_queue (render : Nat → List (Nat × Priority))
    (fuel : Nat) (s : VDomState) (res : List Nat × VDomState)
    (h : processUpdates render fuel s = some res) :
    res.2.sched.UpdateQueue = [] ∧ res.2.sched.IsScheduled = false := by
  induction fuel generalizing s res with
  | zero =>
    cases hq : s.sched.UpdateQueue with
    | nil =>
      rw [processUpdates_nil render 0 s hq] at h
      cases h
      exact ⟨hq, rfl⟩
    | cons v r =>
      rw [processUpdates_zero_cons render s v r hq] at h
      exact Option.noConfusion h
  | succ fuel ih =>
    cases hq : s.sched.UpdateQueue with
    | nil =>
      rw [processUpdates_nil render (fuel + 1) s hq] at h
      cases h
      exact ⟨hq, rfl⟩
    | cons v r =>
      rw [processUpdates_cons render fuel s v r hq] at h
      split at h
      · cases hrec : processUpdates render fuel
            { renderEffects (render v) { s with sched := { s.sched with UpdateQueue := r } } with
              dirty := clearDirty (renderEffects (render v)
                { s with sched := { s.sched with UpdateQueue := r } }).dirty v } with
        | none => rw [hrec] at h; exact Option.noConfusion h
        | some res1 =>
          rw [hrec] at h
          simp only [Option.some_bind] at h
          cases h
          exact ih _ res1 hrec
      · exact ih _ _ h

/-- Witness for the C5 amended theorem at a concrete input. -/
theorem processUpdates_drains_entire_queue_witness :
    NewVirtualDOM.sched.UpdateQueue = [] ∧ NewVirtualDOM.sched.IsScheduled = false :=
  processUpdates_drains_entire_queue renderComponent 0 NewVirtualDOM
    ([], NewVirtualDOM) (by decide)

/-- C6: a node scheduled twice before a flush (its `IsDirty` flag set)
is re-rendered exactly once by that flush: the first queue entry
renders it and clears the flag, the duplicate entry is skipped. -/
theorem double_schedule_single_render (s : VDomState) (n : Nat) (p1 p2 : Priority)
    (hq : s.sched.UpdateQueue = []) (hd : n ∈ s.dirty) :
    (processUpdates renderComponent 2 (Schedule (Schedule s n p1) n p2)).map Prod.fst
      = some [n] := by
  cases s with
  | mk sched dirty flushReq =>
    cases sched with
    | mk q isSched pr =>
      simp only at hq
      subst hq
      by_cases h : isSched
        <;> simp [h, hd, Schedule, processUpdates, renderComponent, renderEffects,
              clearDirty, List.mem_filter]

/-! ## Diff engine: keyed child machinery -/

/-- Helper: a successful key-map lookup returns an in-range index whose
element is a non-nil child keyed with the looked-up key. -/
theorem keyMapLookup_bounds (cs : List (Option VNode)) :
    ∀ (off : Nat) (k : String) (j : Nat), keyMapLookup cs off k = some j →
      off ≤ j ∧ j - off < cs.length
        ∧ ∃ v, cs[j - off]? = some (some v) ∧ v.key = k ∧ k ≠ "" := by
  induction cs with
  | nil =>
    intro off k j h
    simp [keyMapLookup] at h
  | cons c rest ih =>
    intro off k j h
    simp only [keyMapLookup] at h
    cases hrec : keyMapLookup rest (off + 1) k with
    | some j' =>
      simp only [hrec, Option.some.injEq] at h
      rw [← h]
      obtain ⟨h1, h2, v, hv, hk, hne⟩ := ih (off + 1) k j' hrec
      refine ⟨by omega, by simp only [List.length_cons]; omega, v, ?_, hk, hne⟩
      have hidx : j' - off = (j' - (off + 1)) + 1 := by omega
      rw [hidx, List.getElem?_cons_succ]
      exact hv
    | none =>
      simp only [hrec] at h
      cases c with
      | none => simp at h
      | some v =>
        dsimp only [] at h
        by_cases hc : (v.key != "" && v.key == k) = true
        · rw [if_pos hc] at h
          simp only [Option.some.injEq] at h
          rw [← h]
          simp only [Bool.and_eq_true, bne_iff_ne, beq_iff_eq, ne_eq] at hc
          refine ⟨Nat.le_refl off, by simp, v, ?_, hc.2, ?_⟩
          · simp
          · rw [← hc.2]; exact hc.1
        · rw [if_neg hc] at h
          simp at h

/-- Helper: a key carried by no keyed child is absent from the key
map. -/
theorem keyMapLookup_eq_none (cs : List (Option VNode)) :
    ∀ (off : Nat) (k : String), k ∉ childKeys cs → keyMapLookup cs off k = none := by
  induction cs with
  | nil => intro off k _; rfl
  | cons c rest ih =>
    intro off k hk
    have hrest : k ∉ childKeys rest := by
      intro hm
      apply hk
      cases c with
      | none => simpa [childKeys] using hm
      | some v => simp only [childKeys, List.mem_append]; exact Or.inr hm
    have hnone := ih (off + 1) k hrest
    simp only [keyMapLookup, hnone]
    cases c with
    | none => rfl
    | some v =>
      dsimp only []
      by_cases hkey : (v.key != "" && v.key == k) = true
      · exfalso
        simp only [Bool.and_eq_true, bne_iff_ne, beq_iff_eq, ne_eq] at hkey
        obtain ⟨hne, heq⟩ := hkey
        subst heq
        exact hk (by simp [childKeys, hne])
      · rw [if_neg hkey]

/-- Helper: with sibling-unique keys, the key map sends the key of the
child at position `i` back to position `i` (shifted by the running
offset). -/
theorem keyMapLookup_unique (cs : List (Option VNode)) :
    ∀ (i off : Nat) (v : VNode), (childKeys cs).Nodup → cs[i]? = some (some v) →
      v.key ≠ "" → keyMapLookup cs off v.key = some (off + i) := by
  induction cs with
  | nil => intro i off v _ h _; simp at h
  | cons c rest ih =>
    intro i off v hnd hget hkey
    cases i with
    | zero =>
      rw [List.getElem?_cons_zero] at hget
      cases hget
      have hck : childKeys (some v :: rest) = v.key :: childKeys rest := by
        simp [childKeys, hkey]
      rw [hck] at hnd
      have hnotin : v.key ∉ childKeys rest := (List.nodup_cons.mp hnd).1
      have hnone := keyMapLookup_eq_none rest (off + 1) v.key hnotin
      simp only [keyMapLookup, hnone]
      simp [hkey]
    | succ i' =>
      rw [List.getElem?_cons_succ] at hget
      have hndrest : (childKeys rest).Nodup := by
        cases c with
        | none => simpa [childKeys] using hnd
        | some u =>
          by_cases hu : u.key = ""
          · have hck : childKeys (some u :: rest) = childKeys rest := by
              simp [childKeys, hu]
            rwa [hck] at hnd
          · have hck : childKeys (some u :: rest) = u.key :: childKeys rest := by
              simp [childKeys, hu]
            rw [hck] at hnd
            exact (List.nodup_cons.mp hnd).2
      have hrec := ih i' (off + 1) v hndrest hget hkey
      simp only [keyMapLookup, hrec]
      congr 1
      omega

/-- Helper: the key of a keyed child at any position is among the
sibling keys. -/
theorem mem_childKeys_of_getElem (cs : List (Option VNode)) :
    ∀ (i : Nat) (v : VNode), cs[i]? = some (some v) → v.key ≠ "" →
      v.key ∈ childKeys cs := by
  induction cs with
  | nil => intro i v h _; simp at h
  | cons c rest ih =>
    intro i v h hk
    cases i with
    | zero =>
      rw [List.getElem?_cons_zero] at h
      cases h
      simp [childKeys, hk]
    | succ i' =>
      rw [List.getElem?_cons_succ] at h
      have hm := ih i' v h hk
      cases c with
      | none => simpa [childKeys] using hm
      | some u =>
        simp only [childKeys, List.mem_append]
        exact Or.inr hm

/-- Helper: key-map membership is membership among the sibling keys. -/
theorem keyMapHas_iff (cs : List (Option VNode)) (k : String) :
    keyMapHas cs k = true ↔ k ∈ childKeys cs := by
  induction cs with
  | nil => simp [keyMapHas, childKeys]
  | cons c rest ih =>
    cases c with
    | none =>
      simp only [keyMapHas, List.any_cons, Bool.or_eq_true] at *
      simpa [childKeys] using ih
    | some v =>
      simp only [keyMapHas, List.any_cons, Bool.or_eq_true, Bool.and_eq_true,
        bne_iff_ne, beq_iff_eq, ne_eq] at *
      by_cases hv : v.key = ""
      · simp [childKeys, hv, ih]
      · have hck : childKeys (some v :: rest) = v.key :: childKeys rest := by
          simp [childKeys, hv]
        rw [hck]
        simp only [List.mem_cons]
        constructor
        · rintro (⟨-, hkk⟩ | hrest)
          · exact Or.inl hkk.symm
          · exact Or.inr (ih.mp hrest)
        · rintro (hkk | hmem)
          · exact Or.inl ⟨hv, hkk.symm⟩
          · exact Or.inr (ih.mpr hmem)

/-- Helper: the tail of a flat child list is flat. -/
theorem flatChildren_tail (c : Option VNode) (rest : List (Option VNode))
    (h : flatChildren (c :: rest) = true) : flatChildren rest = true := by
  simp only [flatChildren, List.all_cons, Bool.and_eq_true] at h
  exact h.2

/-- Helper: a non-nil element of a flat child list has no children. -/
theorem flatChildren_getElem (cs : List (Option VNode)) (i : Nat) (v : VNode)
    (hflat : flatChildren cs = true) (hget : cs[i]? = some (some v)) :
    v.children = [] := by
  have hmem : some v ∈ cs := List.mem_iff_getElem?.mpr ⟨i, hget⟩
  have := (List.all_eq_true.mp hflat) (some v) hmem
  simpa [List.isEmpty_iff] using this

/-- Helper: diffing two empty child lists yields nothing. -/
theorem diffChildren_nil (i : Nat) : diffChildren [] [] i = some [] := by
  simp [diffChildren, hasKeys, diffPositional]

/-- Helper: diffing two leaf nodes yields at most one operation — an
`Update` or a `Replace` — and it mentions exactly those two nodes. -/
theorem diffRecursive_flat (a b : VNode) (i : Nat)
    (ha : a.children = []) (hb : b.children = []) :
    ∃ ds, diffRecursive (some a) (some b) i = some ds
      ∧ ∀ d ∈ ds, (d.type = DiffType.DiffUpdate ∨ d.type = DiffType.DiffReplace)
          ∧ d.oldNode = some a ∧ d.newNode = some b := by
  rw [diffRecursive]
  by_cases ht : a.type = b.type
  · rw [if_neg (by simpa using ht)]
    rw [ha, hb, diffChildren_nil]
    by_cases hp : diffProps a.props b.props = []
    · refine ⟨_, rfl, ?_⟩
      intro d hd
      rw [if_neg (by simpa using hp)] at hd
      simp at hd
    · refine ⟨_, rfl, ?_⟩
      intro d hd
      rw [if_pos (by simpa using hp)] at hd
      simp at hd
      subst hd
      exact ⟨Or.inl rfl, rfl, rfl⟩
  · rw [if_pos (by simpa using ht)]
    refine ⟨_, rfl, ?_⟩
    intro d hd
    simp at hd
    subst hd
    exact ⟨Or.inr rfl, rfl, rfl⟩

/-- Helper: over flat child lists the matching loop succeeds and emits
only operations that mention keyed children — recursing pairs produce
`Update`/`Replace` on the two matched keyed children, unmatched keyed
new children produce `Create`, unkeyed and nil children produce
nothing. -/
theorem keyedLoop_flat (oldC : List (Option VNode)) (hflatO : flatChildren oldC = true) :
    ∀ (rest : List (Option VNode)) (i : Nat), flatChildren rest = true →
      ∃ ds, keyedLoop oldC rest i = some ds
        ∧ ∀ d ∈ ds, d.type ≠ DiffType.DiffReorder
            ∧ (∀ v, d.oldNode = some v → v.key ≠ "")
            ∧ (∀ v, d.newNode = some v → v.key ≠ "") := by
  intro rest
  induction rest with
  | nil =>
    intro i _
    refine ⟨[], ?_, by simp⟩
    rw [keyedLoop.eq_def]
  | cons c rest' ih =>
    intro i hflat
    have hflat' := flatChildren_tail c rest' hflat
    rw [keyedLoop.eq_def]
    dsimp only []
    cases c with
    | none => exact ih (i + 1) hflat'
    | some v =>
      dsimp only []
      by_cases hk : (v.key != "") = true
      · rw [if_pos hk]
        have hvkey : v.key ≠ "" := bne_iff_ne.mp hk
        cases hlook : keyMapLookup oldC 0 v.key with
        | some j =>
          simp only [hlook]
          obtain ⟨-, hjlt, u, hu, hukey, -⟩ := keyMapLookup_bounds oldC 0 v.key j hlook
          rw [Nat.sub_zero] at hu hjlt
          have hgetD : oldC.getD j none = some u := by
            rw [List.getD_eq_getElem?_getD, hu]
            rfl
          rw [hgetD]
          have huch : u.children = [] := flatChildren_getElem oldC j u hflatO hu
          have hvch : v.children = [] := by
            simp only [flatChildren, List.all_cons, Bool.and_eq_true] at hflat
            simpa [List.isEmpty_iff] using hflat.1
          obtain ⟨ds1, hds1, hprop1⟩ := diffRecursive_flat u v i huch hvch
          rw [hds1]
          obtain ⟨ds2, hds2, hprop2⟩ := ih (i + 1) hflat'
          rw [hds2]
          simp only [Option.some_bind]
          refine ⟨ds1 ++ ds2, rfl, ?_⟩
          intro d hd
          rcases List.mem_append.mp hd with h1 | h2
          · obtain ⟨htype, hold, hnew⟩ := hprop1 d h1
            have hukey' : u.key ≠ "" := by rw [hukey]; exact hvkey
            refine ⟨?_, ?_, ?_⟩
            · rcases htype with h | h <;> simp [h]
            · intro w hw
              rw [hold] at hw
              cases hw
              exact hukey'
            · intro w hw
              rw [hnew] at hw
              cases hw
              exact hvkey
          · exact hprop2 d h2
        | none =>
          simp only [hlook]
          obtain ⟨ds2, hds2, hprop2⟩ := ih (i + 1) hflat'
          rw [hds2]
          simp only [Option.some_bind]
          refine ⟨_, rfl, ?_⟩
          intro d hd
          rcases List.mem_cons.mp hd with h1 | h2
          · subst h1
            refine ⟨by simp, ?_, ?_⟩
            · intro w hw
              exact Option.noConfusion hw
            · intro w hw
              cases hw
              exact hvkey
          · exact hprop2 d h2
      · rw [if_neg hk]
        exact ih (i + 1) hflat'

/-- Helper: the removal loop emits only `Remove` operations on keyed
old children. -/
theorem removedDiffs_props (newC : List (Option VNode)) :
    ∀ (suf : List (Option VNode)) (i : Nat) (d : Diff), d ∈ removedDiffs suf i newC →
      d.type = DiffType.DiffRemove ∧ (∃ v, d.oldNode = some v ∧ v.key ≠ "")
        ∧ d.newNode = none := by
  intro suf
  induction suf with
  | nil => intro i d hd; simp [removedDiffs] at hd
  | cons c rest ih =>
    intro i d hd
    rcases List.mem_append.mp (by simpa [removedDiffs] using hd) with h1 | h2
    · cases c with
      | none => simp at h1
      | some v =>
        dsimp only [] at h1
        by_cases hcond : ¬v.key = "" ∧ keyMapHas newC v.key = false
        · rw [if_pos hcond] at h1
          simp only [List.mem_singleton] at h1
          subst h1
          exact ⟨rfl, ⟨v, rfl, hcond.1⟩, rfl⟩
        · rw [if_neg hcond] at h1
          simp at h1
    · exact ih (i + 1) d h2

/-- C1 amended: when any key is present, child diffing ignores unkeyed
children entirely — every operation it emits mentions only keyed
children, so an unkeyed child yields no `Create`, no `Remove`, and is
never matched by position (for flat child lists, whose matched pairs
produce no nested operations). -/
theorem keyed_diff_ignores_unkeyed_children (oldC newC : List (Option VNode)) (p : Nat)
    (hkeys : (hasKeys oldC || hasKeys newC) = true)
    (hflatO : flatChildren oldC = true) (hflatN : flatChildren newC = true) :
    ∃ ds, diffChildren oldC newC p = some ds
      ∧ ∀ d ∈ ds, (∀ v, d.oldNode = some v → v.key ≠ "")
          ∧ (∀ v, d.newNode = some v → v.key ≠ "") := by
  have hcond : (!hasKeys oldC && !hasKeys newC) = false := by
    cases h1 : hasKeys oldC <;> cases h2 : hasKeys newC <;> simp_all
  rw [diffChildren, hcond]
  simp only [Bool.false_eq_true, if_false]
  rw [diffChildrenWithKeys]
  obtain ⟨ds1, hds1, hprop1⟩ := keyedLoop_flat oldC hflatO newC 0 hflatN
  rw [hds1]
  simp only [Option.some_bind]
  refine ⟨_, rfl, ?_⟩
  intro d hd
  rcases List.mem_append.mp hd with hmem | hrem
  · rcases List.mem_append.mp hmem with h1 | hreo
    · obtain ⟨-, ho, hn⟩ := hprop1 d h1
      exact ⟨ho, hn⟩
    · by_cases hnr : needsReorder (movesOf oldC newC) = true
      · simp only [hnr, if_true, List.mem_singleton] at hreo
        subst hreo
        exact ⟨fun w hw => Option.noConfusion hw, fun w hw => Option.noConfusion hw⟩
      · simp only [Bool.not_eq_true] at hnr
        simp [hnr] at hreo
  · obtain ⟨-, ⟨v, hv, hvk⟩, hnew⟩ := removedDiffs_props newC oldC 0 d hrem
    refine ⟨fun w hw => ?_, fun w hw => ?_⟩
    · rw [hv] at hw
      cases hw
      exact hvk
    · rw [hnew] at hw
      exact Option.noConfusion hw

/-- C1 counterexample: the new list holds the unkeyed child `nX` beside
the keyed child `nA`, so the keyed path is taken — yet the diff output
is empty: the unkeyed child in the new list yields no `Create`
operation (and the claimed Create/Remove for unkeyed children never
happens). -/
theorem keyed_diff_drops_unkeyed_create :
    hasKeys [some nA, some nX] = true
    ∧ nX.key = ""
    ∧ diffChildren [some nA] [some nA, some nX] 0 = some [] := by
  refine ⟨by decide, by decide, ?_⟩
  simp [diffChildren, diffChildrenWithKeys, keyedLoop, diffRecursive, diffPositional,
    hasKeys, keyMapLookup, movesOf, needsReorder, needsReorderAux, removedDiffs,
    keyMapHas, diffProps, nA, nX]

/-- Witness for the C1 amended theorem at a concrete input. -/
theorem keyed_diff_ignores_unkeyed_children_witness :
    (hasKeys [some nA] || hasKeys [some nA, some nX]) = true
    ∧ ∃ ds, diffChildren [some nA] [some nA, some nX] 0 = some ds
        ∧ ∀ d ∈ ds, (∀ v, d.oldNode = some v → v.key ≠ "")
            ∧ (∀ v, d.newNode = some v → v.key ≠ "") :=
  ⟨by decide,
   keyed_diff_ignores_unkeyed_children [some nA] [some nA, some nX] 0
     (by decide) (by decide) (by decide)⟩

/-- Helper: the `needsReorder` loop returns false exactly when the
matched entries, with the running `lastIndex` prepended, form a
non-decreasing chain. -/
theorem needsReorderAux_eq_false_iff (l : List Int) :
    ∀ last : Int, needsReorderAux last l = false
      ↔ List.Chain' (· ≤ ·) (last :: l.filter fun m => m ≠ -1) := by
  induction l with
  | nil => intro last; simp [needsReorderAux]
  | cons m rest ih =>
    intro last
    by_cases hm : m = -1
    · subst hm
      simp [needsReorderAux, List.filter_cons, ih last]
    · have hm' : (m != -1) = true := bne_iff_ne.mpr hm
      simp only [needsReorderAux, hm', if_true]
      rw [List.filter_cons, if_pos (show decide (m ≠ -1) = true by simp [hm]),
        List.chain'_cons]
      by_cases hlt : m < last
      · rw [if_pos hlt]
        simp only [Bool.true_eq_false, false_iff]
        intro hcontra
        exact absurd hcontra.1 (Int.not_le.mpr hlt)
      · rw [if_neg hlt, ih m]
        constructor
        · intro h
          exact ⟨Int.not_lt.mp hlt, h⟩
        · intro h
          exact h.2

/-- Helper: matched moves are original positions, hence nonnegative. -/
theorem matchedMoves_movesOf_nonneg (oldC newC : List (Option VNode)) :
    ∀ m ∈ matchedMoves (movesOf oldC newC), 0 ≤ m := by
  intro m hm
  rw [matchedMoves, List.mem_filter] at hm
  obtain ⟨hmem, hne⟩ := hm
  simp only [decide_eq_true_eq] at hne
  rw [movesOf, List.mem_map] at hmem
  obtain ⟨child, -, heq⟩ := hmem
  cases child with
  | none =>
    dsimp only [] at heq
    exact absurd heq.symm hne
  | some c =>
    dsimp only [] at heq
    by_cases hk : (c.key != "") = true
    · rw [if_pos hk] at heq
      cases hlook : keyMapLookup oldC 0 c.key with
      | some j =>
        simp only [hlook] at heq
        rw [← heq]
        exact Int.natCast_nonneg j
      | none =>
        simp only [hlook] at heq
        exact absurd heq.symm hne
    · rw [if_neg hk] at heq
      exact absurd heq.symm hne

/-- Helper: a `-1` head below nonnegative entries does not affect the
chain condition. -/
theorem chain'_cons_neg_one (l : List Int) (hpos : ∀ m ∈ l, 0 ≤ m) :
    List.Chain' (· ≤ ·) ((-1 : Int) :: l) ↔ List.Chain' (· ≤ ·) l := by
  cases l with
  | nil => simp
  | cons a l' =>
    rw [List.chain'_cons]
    have ha : (-1 : Int) ≤ a := le_trans (by omega) (hpos a (by simp))
    simp [ha]

/-- Helper: `needsReorder` detects exactly a non-monotone sequence of
matched original positions read in new order. -/
theorem needsReorder_movesOf_iff (oldC newC : List (Option VNode)) :
    needsReorder (movesOf oldC newC) = false
      ↔ List.Chain' (· ≤ ·) (matchedMoves (movesOf oldC newC)) := by
  have hpos := matchedMoves_movesOf_nonneg oldC newC
  rw [matchedMoves] at hpos
  rw [needsReorder, matchedMoves, needsReorderAux_eq_false_iff]
  exact chain'_cons_neg_one _ hpos

/-- C2: over flat keyed child lists the diff emits exactly one
`Reorder` when the matched children's original positions, read in
new-list order, are not monotonically non-decreasing, and none when
they are; for old `[A(1),B(2),C(3)]` and new `[C(3),A(1),B(2)]` the
output is exactly one `Reorder` — no `Create` or `Remove` for A, B, C. -/
theorem keyed_diff_single_reorder (oldC newC : List (Option VNode)) (p : Nat)
    (hkeys : (hasKeys oldC || hasKeys newC) = true)
    (hflatO : flatChildren oldC = true) (hflatN : flatChildren newC = true) :
    (∃ ds, diffChildren oldC newC p = some ds
       ∧ countDiffType DiffType.DiffReorder ds
           = if List.Chain' (· ≤ ·) (matchedMoves (movesOf oldC newC)) then 0 else 1)
    ∧ diffChildren keyedOld keyedNew 0
        = some [{ type := DiffType.DiffReorder, index := 0 }] := by
  constructor
  · have hcond : (!hasKeys oldC && !hasKeys newC) = false := by
      cases h1 : hasKeys oldC <;> cases h2 : hasKeys newC <;> simp_all
    rw [diffChildren, hcond]
    simp only [Bool.false_eq_true, if_false]
    rw [diffChildrenWithKeys]
    obtain ⟨ds1, hds1, hprop1⟩ := keyedLoop_flat oldC hflatO newC 0 hflatN
    rw [hds1]
    simp only [Option.some_bind]
    refine ⟨_, rfl, ?_⟩
    rw [countDiffType, List.countP_append, List.countP_append]
    have hc1 : List.countP (fun d => d.type == DiffType.DiffReorder) ds1 = 0 := by
      rw [List.countP_eq_zero]
      intro d hd
      simp only [beq_iff_eq]
      exact (hprop1 d hd).1
    have hc3 : List.countP (fun d => d.type == DiffType.DiffReorder)
        (removedDiffs oldC 0 newC) = 0 := by
      rw [List.countP_eq_zero]
      intro d hd
      have ht := (removedDiffs_props newC oldC 0 d hd).1
      simp [beq_iff_eq, ht]
    rw [hc1, hc3]
    by_cases hnr : needsReorder (movesOf oldC newC) = true
    · have hchain : ¬ List.Chain' (· ≤ ·) (matchedMoves (movesOf oldC newC)) := by
        intro hch
        have := (needsReorder_movesOf_iff oldC newC).mpr hch
        rw [hnr] at this
        exact Bool.noConfusion this
      simp [hnr, hchain]
    · have hnr' : needsReorder (movesOf oldC newC) = false := by simpa using hnr
      have hchain := (needsReorder_movesOf_iff oldC newC).mp hnr'
      simp [hnr', hchain]
  · simp [diffChildren, diffChildrenWithKeys, keyedLoop, diffRecursive, diffPositional,
      hasKeys, keyMapLookup, movesOf, needsReorder, needsReorderAux, removedDiffs,
      keyMapHas, diffProps, keyedOld, keyedNew, nA, nB, nC]

/-- Witness for C2 at the concrete keyed lists. -/
theorem keyed_diff_single_reorder_witness :
    (hasKeys keyedOld || hasKeys keyedNew) = true
    ∧ ((∃ ds, diffChildren keyedOld keyedNew 0 = some ds
         ∧ countDiffType DiffType.DiffReorder ds
             = if List.Chain' (· ≤ ·) (matchedMoves (movesOf keyedOld keyedNew)) then 0
               else 1)
       ∧ diffChildren keyedOld keyedNew 0
           = some [{ type := DiffType.DiffReorder, index := 0 }]) :=
  ⟨by decide,
   keyed_diff_single_reorder keyedOld keyedNew 0 (by decide) (by decide) (by decide)⟩

/-! ## Totality of the diff over non-nil trees (C9) -/

theorem isSome_bind_of {α β : Type _} (X : Option α) (f : α → Option β)
    (hX : X.isSome) (hf : ∀ x, (f x).isSome) : (X.bind f).isSome := by
  obtain ⟨x, hx⟩ := Option.isSome_iff_exists.mp hX
  rw [hx]
  exact hf x

theorem one_le_sizeOf_opt (x : Option VNode) : 1 ≤ sizeOf x := by
  cases x <;> simp_arith

theorem one_le_sizeOf_list (l : List (Option VNode)) : 1 ≤ sizeOf l := by
  cases l <;> simp_arith

theorem sizeOf_children_lt (v : VNode) : sizeOf v.children < sizeOf v := by
  cases v with
  | mk t p c k => simp only [VNode.children, VNode.mk.sizeOf_spec]; omega

theorem noNilList_cons (c : Option VNode) (rest : List (Option VNode))
    (h : noNilList (c :: rest) = true) :
    ∃ v, c = some v ∧ noNil v = true ∧ noNilList rest = true := by
  cases c with
  | none => rw [noNilList] at h; exact Bool.noConfusion h
  | some v =>
    rw [noNilList] at h
    simp only [Bool.and_eq_true] at h
    exact ⟨v, rfl, h.1, h.2⟩

theorem noNilList_mem (l : List (Option VNode)) (c : Option VNode)
    (hm : c ∈ l) (h : noNilList l = true) : ∃ v, c = some v ∧ noNil v = true := by
  induction l with
  | nil => simp at hm
  | cons head tail ih =>
    obtain ⟨v, rfl, hv, htail⟩ := noNilList_cons head tail h
    rcases List.mem_cons.mp hm with rfl | hmt
    · exact ⟨v, rfl, hv⟩
    · exact ih hmt htail

theorem noNil_to_children (v : VNode) (h : noNil v = true) :
    noNilList v.children = true := by
  cases v with
  | mk t p c k =>
    rw [noNil] at h
    simpa using h

/-- Helper: totality of the positional loop over non-nil child lists,
given totality of `diffRecursive` below the bound `B`. -/
theorem diffPositional_total (B : Nat)
    (IH : ∀ (o n : Option VNode) (j : Nat), sizeOf o + sizeOf n < B →
      (o ≠ none ∨ n ≠ none) → (∀ v, o = some v → noNil v = true) →
      (∀ v, n = some v → noNil v = true) → (diffRecursive o n j).isSome) :
    ∀ (oldL newL : List (Option VNode)) (i : Nat),
      sizeOf oldL + sizeOf newL ≤ B →
      noNilList oldL = true → noNilList newL = true →
      (diffPositional oldL newL i).isSome := by
  intro oldL
  induction oldL with
  | nil =>
    intro newL
    induction newL with
    | nil =>
      intro i _ _ _
      rw [diffPositional]
      rfl
    | cons n ns ihn =>
      intro i hsz hO hN
      obtain ⟨v, rfl, hv, hns⟩ := noNilList_cons n ns hN
      rw [diffPositional]
      have hsz1 : sizeOf ([] : List (Option VNode)) + sizeOf ns ≤ B := by
        have h1 := one_le_sizeOf_opt (some v)
        simp only [List.cons.sizeOf_spec] at hsz
        omega
      apply isSome_bind_of
      · apply IH none (some v) i
        · have := one_le_sizeOf_list ns
          simp only [List.cons.sizeOf_spec, List.nil.sizeOf_spec, Option.none.sizeOf_spec,
            Option.some.sizeOf_spec] at hsz ⊢
          omega
        · exact Or.inr (by simp)
        · intro w hw; exact Option.noConfusion hw
        · intro w hw; cases hw; exact hv
      · intro x
        apply isSome_bind_of
        · exact ihn (i + 1) hsz1 hO hns
        · intro y; rfl
  | cons o os iho =>
    intro newL i hsz hO hN
    obtain ⟨ov, rfl, hov, hos⟩ := noNilList_cons o os hO
    cases newL with
    | nil =>
      rw [diffPositional]
      apply isSome_bind_of
      · apply IH (some ov) none i
        · have := one_le_sizeOf_list os
          simp only [List.cons.sizeOf_spec, List.nil.sizeOf_spec, Option.none.sizeOf_spec,
            Option.some.sizeOf_spec] at hsz ⊢
          omega
        · exact Or.inl (by simp)
        · intro w hw; cases hw; exact hov
        · intro w hw; exact Option.noConfusion hw
      · intro x
        apply isSome_bind_of
        · apply iho [] (i + 1) ?_ hos (by rw [noNilList])
          have h1 := one_le_sizeOf_opt (some ov)
          simp only [List.cons.sizeOf_spec] at hsz
          omega
        · intro y; rfl
    | cons n ns =>
      obtain ⟨nv, rfl, hnv, hns⟩ := noNilList_cons n ns hN
      rw [diffPositional]
      apply isSome_bind_of
      · apply IH (some ov) (some nv) i
        · have h1 := one_le_sizeOf_list os
          have h2 := one_le_sizeOf_list ns
          simp only [List.cons.sizeOf_spec] at hsz
          omega
        · exact Or.inl (by simp)
        · intro w hw; cases hw; exact hov
        · intro w hw; cases hw; exact hnv
      · intro x
        apply isSome_bind_of
        · apply iho (ns) (i + 1) ?_ hos hns
          have h1 := one_le_sizeOf_opt (some ov)
          have h2 := one_le_sizeOf_opt (some nv)
          simp only [List.cons.sizeOf_spec] at hsz
          omega
        · intro y; rfl

/-- Helper: totality of the keyed matching loop over non-nil child
lists. -/
theorem keyedLoop_total (B : Nat)
    (IH : ∀ (o n : Option VNode) (j : Nat), sizeOf o + sizeOf n < B →
      (o ≠ none ∨ n ≠ none) → (∀ v, o = some v → noNil v = true) →
      (∀ v, n = some v → noNil v = true) → (diffRecursive o n j).isSome) :
    ∀ (oldL rest : List (Option VNode)) (i : Nat),
      sizeOf oldL + sizeOf rest ≤ B →
      noNilList oldL = true → noNilList rest = true →
      (keyedLoop oldL rest i).isSome := by
  intro oldL rest
  induction rest with
  | nil =>
    intro i hsz hO hN
    rw [keyedLoop.eq_def]
    rfl
  | cons c rest' ih =>
    intro i hsz hO hN
    obtain ⟨v, rfl, hv, hrest⟩ := noNilList_cons c rest' hN
    have hsz' : sizeOf oldL + sizeOf rest' ≤ B := by
      have h1 := one_le_sizeOf_opt (some v)
      simp only [List.cons.sizeOf_spec] at hsz
      omega
    rw [keyedLoop.eq_def]
    dsimp only []
    by_cases hk : (v.key != "") = true
    · rw [if_pos hk]
      cases hlook : keyMapLookup oldL 0 v.key with
      | some j =>
        simp only [hlook]
        obtain ⟨-, hjlt, u, hu, -, -⟩ := keyMapLookup_bounds oldL 0 v.key j hlook
        rw [Nat.sub_zero] at hu hjlt
        have hgetD : oldL.getD j none = some u := by
          rw [List.getD_eq_getElem?_getD, hu]
          rfl
        rw [hgetD]
        have hmem : some u ∈ oldL := List.mem_iff_getElem?.mpr ⟨j, hu⟩
        obtain ⟨u', hu', hnu⟩ := noNilList_mem oldL (some u) hmem hO
        have hnuu : noNil u = true := by
          cases hu'
          exact hnu
        apply isSome_bind_of
        · apply IH (some u) (some v) i
          · have h1 := List.sizeOf_lt_of_mem hmem
            simp only [List.cons.sizeOf_spec] at hsz
            have h2 := one_le_sizeOf_list rest'
            omega
          · exact Or.inl (by simp)
          · intro w hw; cases hw; exact hnuu
          · intro w hw; cases hw; exact hv
        · intro x
          apply isSome_bind_of
          · exact ih (i + 1) hsz' hO hrest
          · intro y; rfl
      | none =>
        simp only [hlook]
        apply isSome_bind_of
        · exact ih (i + 1) hsz' hO hrest
        · intro y; rfl
    · rw [if_neg hk]
      exact ih (i + 1) hsz' hO hrest

/-- Helper: totality of `diffRecursive` when at least one side is
non-nil and both trees are free of nil children. -/
theorem diffRecursive_total : ∀ (N : Nat) (o n : Option VNode) (i : Nat),
    sizeOf o + sizeOf n ≤ N → (o ≠ none ∨ n ≠ none) →
    (∀ v, o = some v → noNil v = true) → (∀ v, n = some v → noNil v = true) →
    (diffRecursive o n i).isSome := by
  intro N
  induction N with
  | zero =>
    intro o n i hsz _ _ _
    have h1 := one_le_sizeOf_opt o
    have h2 := one_le_sizeOf_opt n
    omega
  | succ N ihN =>
    intro o n i hsz hnn hwo hwn
    cases o with
    | none =>
      cases n with
      | none =>
        rcases hnn with h | h <;> exact absurd rfl h
      | some nv =>
        rw [diffRecursive]
        rfl
    | some ov =>
      cases n with
      | none =>
        rw [diffRecursive]
        rfl
      | some nv =>
        rw [diffRecursive]
        by_cases ht : ov.type = nv.type
        · rw [if_neg (by simp [ht])]
          dsimp only []
          apply isSome_bind_of
          · have hB : sizeOf ov.children + sizeOf nv.children
                < sizeOf (some ov) + sizeOf (some nv) := by
              have h1 := sizeOf_children_lt ov
              have h2 := sizeOf_children_lt nv
              simp only [Option.some.sizeOf_spec]
              omega
            have hIH : ∀ (o' n' : Option VNode) (j : Nat),
                sizeOf o' + sizeOf n' < sizeOf ov.children + sizeOf nv.children →
                (o' ≠ none ∨ n' ≠ none) → (∀ v, o' = some v → noNil v = true) →
                (∀ v, n' = some v → noNil v = true) → (diffRecursive o' n' j).isSome := by
              intro o' n' j h' hnn' hwo' hwn'
              exact ihN o' n' j (by omega) hnn' hwo' hwn'
            have hchO := noNil_to_children ov (hwo ov rfl)
            have hchN := noNil_to_children nv (hwn nv rfl)
            rw [diffChildren]
            by_cases hk : (!hasKeys ov.children && !hasKeys nv.children) = true
            · rw [if_pos hk]
              exact diffPositional_total _ hIH ov.children nv.children 0 (le_refl _)
                hchO hchN
            · rw [if_neg hk]
              rw [diffChildrenWithKeys]
              apply isSome_bind_of
              · exact keyedLoop_total _ hIH ov.children nv.children 0 (le_refl _)
                  hchO hchN
              · intro x; rfl
          · intro x; rfl
        · rw [if_pos (by simp [ht])]
          rfl

/-- C9 counterexample: calling `diff` with both arguments null
dereferences `oldNode.Type` — a runtime panic, not an Operation list:
the embedded function has no result there. -/
theorem diff_both_null_faults :
    VirtualDOM.Diff none none = none ∧ ¬ (VirtualDOM.Diff none none).isSome := by
  constructor <;> simp [VirtualDOM.Diff, diffRecursive]

/-- C9 amended: `diff` returns an Operation list without faulting for
every pair of trees drawn from the data model (no nil child entries)
in which at least one argument is non-null; only the both-null corner
faults. -/
theorem VirtualDOM_Diff_total (o n : Option VNode)
    (hnn : o ≠ none ∨ n ≠ none)
    (hwo : ∀ v, o = some v → noNil v = true)
    (hwn : ∀ v, n = some v → noNil v = true) :
    (VirtualDOM.Diff o n).isSome := by
  rw [VirtualDOM.Diff]
  exact diffRecursive_total (sizeOf o + sizeOf n) o n 0 (le_refl _) hnn hwo hwn

/-- Witness for the C9 amended theorem at a concrete input. -/
theorem VirtualDOM_Diff_total_witness :
    noNil wfTree = true ∧ (VirtualDOM.Diff (some wfTree) none).isSome :=
  ⟨by simp [noNil, noNilList, wfTree],
   VirtualDOM_Diff_total (some wfTree) none (Or.inl (by simp))
     (fun v hv => by cases hv; simp [noNil, noNilList, wfTree])
     (fun v hv => Option.noConfusion hv)⟩

/-! ## Identical trees diff to nothing (C7) -/

theorem one_le_sizeOf_vnode (v : VNode) : 1 ≤ sizeOf v := by
  cases v <;> simp_arith

theorem nodupStr_iff (l : List String) : nodupStr l = true ↔ l.Nodup := by
  induction l with
  | nil => simp [nodupStr]
  | cons k rest ih =>
    rw [nodupStr]
    simp [List.nodup_cons, ih]

/-- Helper: with nodup keys, a binding of the map is what lookup
returns. -/
theorem mapLookup_self (p : List (String × PVal)) (k : String) (v : PVal)
    (hnd : (p.map Prod.fst).Nodup) (hm : (k, v) ∈ p) : mapLookup p k = some v := by
  induction p with
  | nil => simp at hm
  | cons kv rest ih =>
    obtain ⟨k0, v0⟩ := kv
    simp only [List.map_cons, List.nodup_cons] at hnd
    rcases List.mem_cons.mp hm with heq | hmt
    · cases heq
      rw [mapLookup, if_pos rfl]
    · have hne : k0 ≠ k := by
        intro he
        subst he
        exact hnd.1 (List.mem_map.mpr ⟨(k0, v), hmt, rfl⟩)
      rw [mapLookup, if_neg hne]
      exact ih hnd.2 hmt

/-- Helper: a key bound in the map has a successful lookup. -/
theorem mapLookup_isSome_of_mem (p : List (String × PVal)) (k : String) (v : PVal)
    (hm : (k, v) ∈ p) : (mapLookup p k).isSome := by
  induction p with
  | nil => simp at hm
  | cons kv rest ih =>
    obtain ⟨k0, v0⟩ := kv
    rcases List.mem_cons.mp hm with heq | hmt
    · cases heq
      rw [mapLookup, if_pos rfl]
      rfl
    · by_cases hk : k0 = k
      · rw [mapLookup, if_pos hk]
        rfl
      · rw [mapLookup, if_neg hk]
        exact ih hmt

/-- Helper: map-equal props with nodup keys have an empty prop delta. -/
theorem diffProps_equiv_nil (p q : List (String × PVal))
    (heq : propsEquiv p q)
    (hndp : (p.map Prod.fst).Nodup) (hndq : (q.map Prod.fst).Nodup) :
    diffProps p q = [] := by
  rw [diffProps, List.append_eq_nil]
  constructor
  · rw [List.filterMap_eq_nil]
    intro kv hm
    have hl : mapLookup p kv.1 = some kv.2 := by
      rw [heq kv.1]
      exact mapLookup_self q kv.1 kv.2 hndq (by cases kv; exact hm)
    rw [hl]
    simp
  · rw [List.filterMap_eq_nil]
    intro kv hm
    have hl : (mapLookup q kv.1).isSome := by
      rw [← heq kv.1]
      exact mapLookup_isSome_of_mem p kv.1 kv.2 (by cases kv; exact hm)
    obtain ⟨w, hw⟩ := Option.isSome_iff_exists.mp hl
    rw [hw]

/-- Helper: destructing `SIdent` into its four components. -/
theorem SIdent.destruct (a b : VNode) (h : SIdent a b) :
    a.type = b.type ∧ propsEquiv a.props b.props ∧ a.key = b.key
      ∧ SIdentChildren a.children b.children := by
  cases a with
  | mk t p c k =>
    cases b with
    | mk t' p' c' k' =>
      rw [SIdent.eq_def] at h
      exact h

/-- Helper: the parts of tree well-formedness. -/
theorem VNodeWF_parts (a : VNode) (h : VNodeWF a = true) :
    (a.props.map Prod.fst).Nodup ∧ (childKeys a.children).Nodup
      ∧ childrenWF a.children = true := by
  cases a with
  | mk t p c k =>
    rw [VNodeWF] at h
    simp only [Bool.and_eq_true] at h
    exact ⟨(nodupStr_iff _).mp h.1.1, (nodupStr_iff _).mp h.1.2, h.2⟩

theorem childrenWF_cons (c : Option VNode) (rest : List (Option VNode))
    (h : childrenWF (c :: rest) = true) :
    ∃ v, c = some v ∧ VNodeWF v = true ∧ childrenWF rest = true := by
  cases c with
  | none => rw [childrenWF] at h; exact Bool.noConfusion h
  | some v =>
    rw [childrenWF] at h
    simp only [Bool.and_eq_true] at h
    exact ⟨v, rfl, h.1, h.2⟩

theorem childrenWF_getElem (l : List (Option VNode)) :
    ∀ (j : Nat) (x : Option VNode), childrenWF l = true → l[j]? = some x →
      ∃ v, x = some v ∧ VNodeWF v = true := by
  induction l with
  | nil => intro j x _ hx; simp at hx
  | cons c rest ih =>
    intro j x h hx
    obtain ⟨v, rfl, hv, hrest⟩ := childrenWF_cons c rest h
    cases j with
    | zero =>
      rw [List.getElem?_cons_zero] at hx
      cases hx
      exact ⟨v, rfl, hv⟩
    | succ j' =>
      rw [List.getElem?_cons_succ] at hx
      exact ih j' x hrest hx

/-- Helper: pointwise identity read through positions, new to old. -/
theorem SIC_getElem (oldL : List (Option VNode)) :
    ∀ (newL : List (Option VNode)), SIdentChildren oldL newL →
      ∀ (j : Nat) (v : VNode), newL[j]? = some (some v) →
        ∃ u, oldL[j]? = some (some u) ∧ SIdent u v := by
  induction oldL with
  | nil =>
    intro newL h j v hj
    cases newL with
    | nil => simp at hj
    | cons n ns =>
      rw [SIdentChildren.eq_def] at h
      exact h.elim
  | cons o os ih =>
    intro newL h j v hj
    cases newL with
    | nil =>
      rw [SIdentChildren.eq_def] at h
      cases o with
      | none => exact h.elim
      | some u0 => exact h.elim
    | cons n ns =>
      cases o with
      | none =>
        rw [SIdentChildren.eq_def] at h
        exact h.elim
      | some u0 =>
        cases n with
        | none =>
          rw [SIdentChildren.eq_def] at h
          exact h.elim
        | some v0 =>
          rw [SIdentChildren.eq_def] at h
          obtain ⟨hsi, hrest⟩ := h
          cases j with
          | zero =>
            rw [List.getElem?_cons_zero] at hj
            cases hj
            exact ⟨u0, by simp, hsi⟩
          | succ j' =>
            rw [List.getElem?_cons_succ] at hj
            obtain ⟨u, hu, hsu⟩ := ih ns hrest j' v hj
            exact ⟨u, by simpa using hu, hsu⟩

/-- Helper: pointwise identity read through positions, old to new. -/
theorem SIC_getElem' (oldL : List (Option VNode)) :
    ∀ (newL : List (Option VNode)), SIdentChildren oldL newL →
      ∀ (j : Nat) (u : VNode), oldL[j]? = some (some u) →
        ∃ v, newL[j]? = some (some v) ∧ SIdent u v := by
  induction oldL with
  | nil => intro newL h j u hj; simp at hj
  | cons o os ih =>
    intro newL h j u hj
    cases newL with
    | nil =>
      rw [SIdentChildren.eq_def] at h
      cases o with
      | none => exact h.elim
      | some u0 => exact h.elim
    | cons n ns =>
      cases o with
      | none =>
        rw [SIdentChildren.eq_def] at h
        exact h.elim
      | some u0 =>
        cases n with
        | none =>
          rw [SIdentChildren.eq_def] at h
          exact h.elim
        | some v0 =>
          rw [SIdentChildren.eq_def] at h
          obtain ⟨hsi, hrest⟩ := h
          cases j with
          | zero =>
            rw [List.getElem?_cons_zero] at hj
            cases hj
            exact ⟨v0, by simp, hsi⟩
          | succ j' =>
            rw [List.getElem?_cons_succ] at hj
            obtain ⟨v, hv, hsv⟩ := ih ns hrest j' u hj
            exact ⟨v, by simpa using hv, hsv⟩

/-- Helper: structurally identical child lists agree on whether any key
is present. -/
theorem hasKeys_eq_of_SIC (oldL : List (Option VNode)) :
    ∀ (newL : List (Option VNode)), SIdentChildren oldL newL →
      hasKeys oldL = hasKeys newL := by
  induction oldL with
  | nil =>
    intro newL h
    cases newL with
    | nil => rfl
    | cons n ns =>
      rw [SIdentChildren.eq_def] at h
      exact h.elim
  | cons o os ih =>
    intro newL h
    cases newL with
    | nil =>
      rw [SIdentChildren.eq_def] at h
      cases o with
      | none => exact h.elim
      | some u0 => exact h.elim
    | cons n ns =>
      cases o with
      | none =>
        rw [SIdentChildren.eq_def] at h
        exact h.elim
      | some u0 =>
        cases n with
        | none =>
          rw [SIdentChildren.eq_def] at h
          exact h.elim
        | some v0 =>
          rw [SIdentChildren.eq_def] at h
          obtain ⟨hsi, hrest⟩ := h
          have hkey : u0.key = v0.key := (SIdent.destruct u0 v0 hsi).2.2.1
          simp only [hasKeys, List.any_cons]
          rw [hkey]
          have := ih ns hrest
          simp only [hasKeys] at this
          rw [this]

/-- Helper: a list element at the border of an append split. -/
theorem getElem_append_cons (pre suf : List (Option VNode)) (x : Option VNode) :
    (pre ++ x :: suf)[pre.length]? = some x := by
  rw [List.getElem?_append_right (le_refl _)]
  simp

/-- Helper: over structurally identical lists with sibling-unique old
keys, every matched move points at the child's own position, so the
`needsReorder` scan never fires. -/
theorem needsReorderAux_ident (oldC newC : List (Option VNode))
    (hnodup : (childKeys oldC).Nodup) (hsi : SIdentChildren oldC newC) :
    ∀ (suf pre : List (Option VNode)) (last : Int),
      newC = pre ++ suf → last < (pre.length : Int) →
      needsReorderAux last (movesOf oldC suf) = false := by
  intro suf
  induction suf with
  | nil => intro pre last _ _; rfl
  | cons c suf' ih =>
    intro pre last heq hlast
    have hlen1 : ((pre ++ [c]).length : Int) = (pre.length : Int) + 1 := by
      simp
    have heq' : newC = (pre ++ [c]) ++ suf' := by
      rw [heq]
      simp
    rw [movesOf, List.map_cons]
    cases c with
    | none =>
      dsimp only []
      rw [needsReorderAux]
      rw [if_neg (by simp)]
      have := ih (pre ++ [none]) last (by simpa using heq') (by rw [hlen1]; omega)
      rw [movesOf] at this
      exact this
    | some v =>
      dsimp only []
      by_cases hk : (v.key != "") = true
      · rw [if_pos hk]
        have hvkey : v.key ≠ "" := bne_iff_ne.mp hk
        have hnew : newC[pre.length]? = some (some v) := by
          rw [heq]
          exact getElem_append_cons pre suf' (some v)
        obtain ⟨u, hu, hsiu⟩ := SIC_getElem oldC newC hsi pre.length v hnew
        have hkeq : u.key = v.key := (SIdent.destruct u v hsiu).2.2.1
        have hlook : keyMapLookup oldC 0 v.key = some pre.length := by
          have h := keyMapLookup_unique oldC pre.length 0 u hnodup hu
            (by rw [hkeq]; exact hvkey)
          rw [hkeq] at h
          simpa using h
        simp only [hlook]
        rw [needsReorderAux]
        rw [if_pos (by
          apply bne_iff_ne.mpr
          have := Int.natCast_nonneg pre.length
          omega)]
        rw [if_neg (by omega)]
        have := ih (pre ++ [some v]) (pre.length : Int) (by simpa using heq')
          (by rw [hlen1]; omega)
        rw [movesOf] at this
        exact this
      · rw [if_neg hk]
        rw [needsReorderAux]
        rw [if_neg (by simp)]
        have := ih (pre ++ [some v]) last (by simpa using heq') (by rw [hlen1]; omega)
        rw [movesOf] at this
        exact this

/-- Helper: over structurally identical lists no old key goes missing,
so the removal loop emits nothing. -/
theorem removedDiffs_ident (oldC newC : List (Option VNode))
    (hsi : SIdentChildren oldC newC) :
    ∀ (suf pre : List (Option VNode)) (i : Nat), oldC = pre ++ suf →
      removedDiffs suf i newC = [] := by
  intro suf
  induction suf with
  | nil => intro pre i _; rfl
  | cons c rest ih =>
    intro pre i heq
    have heq' : oldC = (pre ++ [c]) ++ rest := by
      rw [heq]
      simp
    rw [removedDiffs.eq_def]
    dsimp only []
    rw [ih (pre ++ [c]) (i + 1) (by simpa using heq')]
    cases c with
    | none => rfl
    | some v =>
      by_cases hvk : v.key = ""
      · simp [hvk]
      · have hold : oldC[pre.length]? = some (some v) := by
          rw [heq]
          exact getElem_append_cons pre rest (some v)
        obtain ⟨w, hw, hsw⟩ := SIC_getElem' oldC newC hsi pre.length v hold
        have hkeq : v.key = w.key := (SIdent.destruct v w hsw).2.2.1
        have hmemk : v.key ∈ childKeys newC := by
          rw [hkeq]
          exact mem_childKeys_of_getElem newC pre.length w hw (by rw [← hkeq]; exact hvk)
        have hhas : keyMapHas newC v.key = true := (keyMapHas_iff newC v.key).mpr hmemk
        simp [hhas]

/-- Helper: over structurally identical lists the keyed matching loop
matches every keyed child with itself and diffs to nothing. -/
theorem keyedLoop_ident (oldC newC : List (Option VNode))
    (hnodup : (childKeys oldC).Nodup) (hsi : SIdentChildren oldC newC)
    (hwfO : childrenWF oldC = true)
    (IH : ∀ (a b : VNode) (j : Nat), some a ∈ oldC → VNodeWF a = true →
      VNodeWF b = true → SIdent a b → diffRecursive (some a) (some b) j = some []) :
    ∀ (suf pre : List (Option VNode)), newC = pre ++ suf →
      (∀ x ∈ suf, ∃ v, x = some v ∧ VNodeWF v = true) →
      keyedLoop oldC suf pre.length = some [] := by
  intro suf
  induction suf with
  | nil =>
    intro pre _ _
    rw [keyedLoop.eq_def]
  | cons c rest ih =>
    intro pre heq hwf
    have heq' : newC = (pre ++ [c]) ++ rest := by
      rw [heq]
      simp
    obtain ⟨v, rfl, hwv⟩ := hwf c (by simp)
    have hwfrest : ∀ x ∈ rest, ∃ v, x = some v ∧ VNodeWF v = true :=
      fun x hx => hwf x (by simp [hx])
    have hlen1 : (pre ++ [some v]).length = pre.length + 1 := by simp
    rw [keyedLoop.eq_def]
    dsimp only []
    by_cases hk : (v.key != "") = true
    · rw [if_pos hk]
      have hvkey : v.key ≠ "" := bne_iff_ne.mp hk
      have hnew : newC[pre.length]? = some (some v) := by
        rw [heq]
        exact getElem_append_cons pre rest (some v)
      obtain ⟨u, hu, hsiu⟩ := SIC_getElem oldC newC hsi pre.length v hnew
      have hkeq : u.key = v.key := (SIdent.destruct u v hsiu).2.2.1
      have hlook : keyMapLookup oldC 0 v.key = some pre.length := by
        have h := keyMapLookup_unique oldC pre.length 0 u hnodup hu
          (by rw [hkeq]; exact hvkey)
        rw [hkeq] at h
        simpa using h
      simp only [hlook]
      have hgetD : oldC.getD pre.length none = some u := by
        rw [List.getD_eq_getElem?_getD, hu]
        rfl
      rw [hgetD]
      obtain ⟨u', hu', hwu⟩ := childrenWF_getElem oldC pre.length (some u) hwfO hu
      have huu : VNodeWF u = true := by
        cases hu'
        exact hwu
      have hmem : some u ∈ oldC := List.mem_iff_getElem?.mpr ⟨pre.length, hu⟩
      rw [IH u v pre.length hmem huu hwv hsiu]
      have hrest := ih (pre ++ [some v]) (by simpa using heq') hwfrest
      rw [hlen1] at hrest
      rw [hrest]
      rfl
    · rw [if_neg hk]
      have hrest := ih (pre ++ [some v]) (by simpa using heq') hwfrest
      rw [hlen1] at hrest
      exact hrest

/-- Helper: positional diffing of structurally identical lists yields
nothing. -/
theorem diffPositional_ident (oldL : List (Option VNode)) :
    ∀ (newL : List (Option VNode)) (i : Nat), SIdentChildren oldL newL →
      childrenWF oldL = true → childrenWF newL = true →
      (∀ (a b : VNode) (j : Nat), some a ∈ oldL → VNodeWF a = true →
        VNodeWF b = true → SIdent a b → diffRecursive (some a) (some b) j = some []) →
      diffPositional oldL newL i = some [] := by
  induction oldL with
  | nil =>
    intro newL i hsi _ _ _
    cases newL with
    | nil => rw [diffPositional]
    | cons n ns =>
      rw [SIdentChildren.eq_def] at hsi
      exact hsi.elim
  | cons o os ih =>
    intro newL i hsi hwfO hwfN IH
    cases newL with
    | nil =>
      rw [SIdentChildren.eq_def] at hsi
      cases o with
      | none => exact hsi.elim
      | some u0 => exact hsi.elim
    | cons n ns =>
      cases o with
      | none =>
        rw [SIdentChildren.eq_def] at hsi
        exact hsi.elim
      | some u0 =>
        cases n with
        | none =>
          rw [SIdentChildren.eq_def] at hsi
          exact hsi.elim
        | some v0 =>
          rw [SIdentChildren.eq_def] at hsi
          obtain ⟨hsi0, hsirest⟩ := hsi
          obtain ⟨u0', hu0', hwu0, hwfOs⟩ := childrenWF_cons _ _ hwfO
          obtain ⟨v0', hv0', hwv0, hwfNs⟩ := childrenWF_cons _ _ hwfN
          have hwu : VNodeWF u0 = true := by cases hu0'; exact hwu0
          have hwv : VNodeWF v0 = true := by cases hv0'; exact hwv0
          rw [diffPositional]
          rw [IH u0 v0 i (by simp) hwu hwv hsi0]
          rw [ih ns (i + 1) hsirest hwfOs hwfNs
            (fun a b j hm => IH a b j (List.mem_cons_of_mem _ hm))]
          rfl

/-- Helper: diffing structurally identical well-formed trees yields the
empty operation list. -/
theorem diffRecursive_ident : ∀ (N : Nat) (a b : VNode) (i : Nat), sizeOf a ≤ N →
    VNodeWF a = true → VNodeWF b = true → SIdent a b →
    diffRecursive (some a) (some b) i = some [] := by
  intro N
  induction N with
  | zero =>
    intro a b i hsz _ _ _
    have := one_le_sizeOf_vnode a
    omega
  | succ N ihN =>
    intro a b i hsz hwa hwb hsi
    obtain ⟨ht, hp, hk, hsc⟩ := SIdent.destruct a b hsi
    obtain ⟨hpa, hka, hca⟩ := VNodeWF_parts a hwa
    obtain ⟨hpb, hkb, hcb⟩ := VNodeWF_parts b hwb
    have hIH : ∀ (u v : VNode) (j : Nat), some u ∈ a.children → VNodeWF u = true →
        VNodeWF v = true → SIdent u v → diffRecursive (some u) (some v) j = some [] := by
      intro u v j hm hwu hwv hsuv
      apply ihN u v j ?_ hwu hwv hsuv
      have h1 := List.sizeOf_lt_of_mem hm
      have h2 := sizeOf_children_lt a
      simp only [Option.some.sizeOf_spec] at h1
      omega
    have hchd : diffChildren a.children b.children i = some [] := by
      rw [diffChildren]
      by_cases hkk : (!hasKeys a.children && !hasKeys b.children) = true
      · rw [if_pos hkk]
        exact diffPositional_ident a.children b.children 0 hsc hca hcb hIH
      · rw [if_neg hkk]
        rw [diffChildrenWithKeys]
        have hwfsome : ∀ x ∈ b.children, ∃ v, x = some v ∧ VNodeWF v = true := by
          intro x hx
          obtain ⟨j, hj⟩ := List.mem_iff_getElem?.mp hx
          exact childrenWF_getElem b.children j x hcb hj
        have hkl := keyedLoop_ident a.children b.children hka hsc hca hIH
          b.children [] rfl hwfsome
        simp only [List.length_nil] at hkl
        rw [hkl]
        simp only [Option.some_bind]
        have hnr : needsReorder (movesOf a.children b.children) = false := by
          rw [needsReorder]
          exact needsReorderAux_ident a.children b.children hka hsc b.children [] (-1)
            rfl (by simp)
        rw [hnr]
        rw [removedDiffs_ident a.children b.children hsc a.children [] 0 rfl]
        simp
    rw [diffRecursive]
    rw [if_neg (by simp [ht])]
    dsimp only []
    rw [diffProps_equiv_nil a.props b.props hp hpa hpb]
    rw [hchd]
    simp

/-- C7 amended: for well-formed trees — unique prop keys (a Go-map
invariant), unique sibling keys (the documented precondition of keyed
diffing) and no nil children — structural identity (same type, map-equal
props, same key, structurally identical children at every position)
implies an empty diff. -/
theorem diff_identical_trees_empty (T T' : VNode)
    (hwf : VNodeWF T = true) (hwf' : VNodeWF T' = true) (hid : SIdent T T') :
    VirtualDOM.Diff (some T) (some T') = some [] := by
  rw [VirtualDOM.Diff]
  exact diffRecursive_ident (sizeOf T) T T' 0 (le_refl _) hwf hwf' hid

/-- C7 counterexample: a tree with duplicate sibling keys (children
`a(key=k)` and `b(key=k)`) diffed against itself yields a `Replace` —
not the empty sequence the claim demands for structurally identical
trees. -/
theorem diff_identical_dup_keys_not_empty :
    VirtualDOM.Diff (some dupKeyTree) (some dupKeyTree)
      = some [{ type := .DiffReplace, oldNode := some (VNode.mk "b" [] [] "k"),
                newNode := some (VNode.mk "a" [] [] "k"), index := 0 }]
    ∧ VirtualDOM.Diff (some dupKeyTree) (some dupKeyTree) ≠ some [] := by
  constructor <;>
    simp [VirtualDOM.Diff, diffRecursive, diffChildren, diffChildrenWithKeys, keyedLoop,
      diffPositional, hasKeys, keyMapLookup, movesOf, needsReorder, needsReorderAux,
      removedDiffs, keyMapHas, diffProps, dupKeyTree]

/-- Witness for the C7 amended theorem at a concrete well-formed
tree. -/
theorem diff_identical_trees_empty_witness :
    VNodeWF wfTree = true
    ∧ VirtualDOM.Diff (some wfTree) (some wfTree) = some [] :=
  ⟨by simp [VNodeWF, childrenWF, nodupStr, childKeys, wfTree],
   diff_identical_trees_empty wfTree wfTree
     (by simp [VNodeWF, childrenWF, nodupStr, childKeys, wfTree])
     (by simp [VNodeWF, childrenWF, nodupStr, childKeys, wfTree])
     (by simp [SIdent.eq_def, SIdentChildren.eq_def, propsEquiv, wfTree])⟩

/-! ## Store (C8) -/

/-- Helper: unfolding one reducer step of `dispatchToReducers`. -/
theorem dispatchToReducers_cons {V A : Type} (kr : String × (V → A → V))
    (rest : List (String × (V → A → V))) (st : List (String × V)) (a : A) :
    dispatchToReducers (kr :: rest) st a
      = dispatchToReducers rest
          (match sliceLookup st kr.1 with
           | some currentState => sliceInsert st kr.1 (kr.2 currentState a)
           | none => st) a := rfl

/-- Helper: looking up after a Go-map assignment. -/
theorem sliceLookup_sliceInsert {β : Type _} (st : List (String × β)) (k : String)
    (v : β) (key : String) :
    sliceLookup (sliceInsert st k v) key = if k = key then some v else sliceLookup st key := by
  induction st with
  | nil => simp [sliceInsert, sliceLookup]
  | cons kv rest ih =>
    obtain ⟨k', v'⟩ := kv
    by_cases h : k' = k
    · subst h
      simp only [sliceInsert, if_pos rfl, sliceLookup]
      split_ifs <;> simp_all [sliceLookup]
    · simp only [sliceInsert, if_neg h, sliceLookup]
      split_ifs with h1 h2 <;> simp_all [sliceLookup]

/-- Helper: slices whose key has no registered reducer are untouched by
the reducer loop. -/
theorem dispatch_preserves_no_reducer {V A : Type} (reducers : List (String × (V → A → V)))
    (st : List (String × V)) (a : A) (key : String)
    (h : key ∉ reducers.map Prod.fst) :
    sliceLookup (dispatchToReducers reducers st a) key = sliceLookup st key := by
  induction reducers generalizing st with
  | nil => rfl
  | cons kr rest ih =>
    have hk : kr.1 ≠ key := by
      intro he
      exact h (by simp [← he])
    have hrest : key ∉ rest.map Prod.fst := by
      intro hm
      exact h (by simp [hm])
    rw [dispatchToReducers_cons]
    cases hc : sliceLookup st kr.1 with
    | none => rw [ih _ hrest]
    | some c0 =>
      rw [ih _ hrest, sliceLookup_sliceInsert, if_neg hk]

/-- Helper: a registered reducer transforms exactly its own slice's
current state. -/
theorem dispatch_own_slice {V A : Type} (reducers : List (String × (V → A → V)))
    (st : List (String × V)) (a : A) (key : String) (r : V → A → V) (c : V)
    (hnd : (reducers.map Prod.fst).Nodup)
    (hr : sliceLookup reducers key = some r)
    (hc : sliceLookup st key = some c) :
    sliceLookup (dispatchToReducers reducers st a) key = some (r c a) := by
  induction reducers generalizing st with
  | nil => exact Option.noConfusion hr
  | cons kr rest ih =>
    obtain ⟨k0, r0⟩ := kr
    have hnd' : (rest.map Prod.fst).Nodup := (List.nodup_cons.mp hnd).2
    rw [dispatchToReducers_cons]
    by_cases hk : k0 = key
    · subst hk
      have hrr : r0 = r := by
        simpa [sliceLookup] using hr
      subst hrr
      have hnotin : k0 ∉ rest.map Prod.fst := (List.nodup_cons.mp hnd).1
      rw [hc]
      rw [dispatch_preserves_no_reducer rest _ a k0 hnotin]
      rw [sliceLookup_sliceInsert, if_pos rfl]
    · have hr' : sliceLookup rest key = some r := by
        simpa [sliceLookup, hk] using hr
      cases hcc : sliceLookup st k0 with
      | none => exact ih _ hnd' hr' hc
      | some c0 =>
        refine ih _ hnd' hr' ?_
        rw [sliceLookup_sliceInsert, if_neg hk]
        exact hc

/-- C8: the reducer loop of `Store.Dispatch` is total by construction
(the embedding returns a plain value), a slice key with no registered
reducer is left exactly as it was (silent no-op), and each registered
reducer is applied to its own slice's current state and to no other
slice's. -/
theorem store_dispatch_slice_isolation {V A : Type}
    (reducers : List (String × (V → A → V))) (st : List (String × V)) (a : A) :
    (∀ key, key ∉ reducers.map Prod.fst →
       sliceLookup (dispatchToReducers reducers st a) key = sliceLookup st key)
    ∧ (∀ key r c, (reducers.map Prod.fst).Nodup →
        sliceLookup reducers key = some r → sliceLookup st key = some c →
        sliceLookup (dispatchToReducers reducers st a) key = some (r c a)) :=
  ⟨fun key h => dispatch_preserves_no_reducer reducers st a key h,
   fun key r c hnd hr hc => dispatch_own_slice reducers st a key r c hnd hr hc⟩

/-- Witness for C8: a store with reducer `incrReducer` on slice "a" and
a reducer-less slice "b"; dispatching leaves "b" unchanged and steps
"a" from 0 to `incrReducer 0 0`. -/
theorem store_dispatch_slice_isolation_witness :
    sliceLookup (dispatchToReducers fixtureReducers fixtureSlices (0 : Int)) "b"
      = sliceLookup fixtureSlices "b"
    ∧ sliceLookup (dispatchToReducers fixtureReducers fixtureSlices (0 : Int)) "a"
      = some (incrReducer 0 0) :=
  ⟨(store_dispatch_slice_isolation fixtureReducers fixtureSlices 0).1 "b" (by decide),
   (store_dispatch_slice_isolation fixtureReducers fixtureSlices 0).2 "a" incrReducer 0
     (by decide) (by simp [fixtureReducers, sliceLookup]) (by simp [fixtureSlices, sliceLookup])⟩

/-- Witness for C6 at a concrete input: node 5, dirty, scheduled twice. -/
theorem double_schedule_single_render_witness :
    dirtyFiveState.sched.UpdateQueue = [] ∧ (5 : Nat) ∈ dirtyFiveState.dirty
    ∧ (processUpdates renderComponent 2
        (Schedule (Schedule dirtyFiveState 5 .NormalPriority) 5 .LowPriority)).map Prod.fst
        = some [5] :=
  ⟨by decide, by decide,
    double_schedule_single_render dirtyFiveState 5 .NormalPriority .LowPriority
      (by decide) (by decide)⟩
